import Mathlib

set_option linter.unusedSectionVars false

/-!
Verification of the phi-adic developing-valuation engine
(`src/developing_valuation.py`, class `DevelopingValuation`).

Polynomials of the valuation's domain are embedded as canonical
little-endian coefficient lists over a commutative base ring `K`
(no trailing zeros — mirroring the canonical internal representation
of Sage univariate polynomials).  The abstract method `valuations`
(implemented by external subclasses) is a function field of the
valuation structure, and the externally supplied value group is an
arbitrary linear order `Gam` extended with an infinity element
(`WithTop Gam`).
-/

namespace DevVal

/-- A univariate polynomial over `K`: little-endian coefficient list.
Canonical representatives carry no trailing zeros. -/
abbrev Poly (K : Type) := List K

variable {K : Type} [CommRing K] [DecidableEq K]

/-- Coefficient extraction by index (`f[i]` in the source; `0` out of range). -/
def coeff (f : Poly K) (i : ℕ) : K := f.getD i 0

/-- Canonicalize a coefficient list by dropping trailing zeros. -/
def trim : Poly K → Poly K
  | [] => []
  | a :: f =>
    match trim f with
    | [] => if a = 0 then [] else [a]
    | b :: g => a :: b :: g

/-- A list is in canonical form when trimming does not change it. -/
abbrev IsCanon (f : Poly K) : Prop := trim f = f

/-- Pointwise sum of two coefficient lists (no trimming). -/
def addAux : Poly K → Poly K → Poly K
  | [], g => g
  | f, [] => f
  | a :: f, b :: g => (a + b) :: addAux f g

/-- Polynomial addition with canonical output. -/
def addP (f g : Poly K) : Poly K := trim (addAux f g)

/-- Scalar multiple of a coefficient list (no trimming). -/
def smulAux (c : K) (f : Poly K) : Poly K := f.map (fun a => c * a)

/-- Polynomial scalar multiplication with canonical output. -/
def smulP (c : K) (f : Poly K) : Poly K := trim (smulAux c f)

/-- Convolution product of coefficient lists (no trimming). -/
def mulAux : Poly K → Poly K → Poly K
  | [], _ => []
  | a :: f, g => addAux (smulAux a g) (0 :: mulAux f g)

/-- Polynomial multiplication with canonical output. -/
def mulP (f g : Poly K) : Poly K := trim (mulAux f g)

/-- `sum` of a list of polynomials (as in the Python `sum(...)` calls). -/
def sumP (l : List (Poly K)) : Poly K := l.foldr addP []

/-- Power of a polynomial. -/
def powP (f : Poly K) : ℕ → Poly K
  | 0 => trim [1]
  | n + 1 => mulP f (powP f n)

/-- The degree of a polynomial; the zero polynomial has degree `-1`
(matching Sage's `degree()`). -/
def degree (f : Poly K) : ℤ := ((trim f).length : ℤ) - 1

/-- Evaluation of `f` at another polynomial (`f(g)` in the source), i.e.
polynomial composition, by Horner's rule. -/
def compP (f g : Poly K) : Poly K :=
  f.foldr (fun a acc => addP (trim [a]) (mulP g acc)) []

/-- Polynomial subtraction with canonical output. -/
def subP (f g : Poly K) : Poly K := trim (addAux f (smulAux (-1) g))

/-- The monomial `one() << d`, i.e. `x^d`. -/
def oneShl (d : ℕ) : Poly K := List.replicate d 0 ++ [1]

/-- `sum_i l[i] * phi^i`: the reconstruction sum of a phi-adic expansion. -/
def phiPowSum (phi : Poly K) (l : List (Poly K)) : Poly K :=
  sumP (l.enum.map (fun p => mulP p.2 (powP phi p.1)))

/-- Division with remainder by a divisor `phi` (the externally supplied
`Polynomial.quo_rem` of the Sage polynomial arithmetic, which the spec
assumes correct; for monic `phi` the result is the unique pair `(q, r)`
with `f = q * phi + r` and `deg r < deg phi`, which we prove below). -/
def quoRem (phi : Poly K) : Poly K → Poly K × Poly K
  | [] => ([], [])
  | a :: f =>
    let qr := quoRem phi f
    let r' := a :: qr.2
    if r'.length < phi.length then
      (trim (0 :: qr.1), trim r')
    else
      let c := r'.getLastD 0
      (trim (c :: qr.1), trim (addAux r' (smulAux (-c) phi)))

/-- Minimum of a list (Python `min`); `none` when the list is empty
(where Python's `min` raises `ValueError`). -/
def minList {A : Type} [Min A] : List A → Option A
  | [] => none
  | a :: l => some ((minList l).elim a (min a))

/-- The errors the source can raise, one constructor per distinct
error site/message. -/
inductive PyErr : Type
  /-- `TypeError: domain must be a polynomial ring` (constructor). -/
  | typeErrDomainKind
  /-- `NotImplementedError: domain must be a univariate polynomial ring` (constructor). -/
  | notImplArity
  /-- `TypeError` from `domain.coerce(phi)` failing (constructor). -/
  | typeErrCoerce
  /-- `ValueError: phi must be a monic non-constant polynomial` (constructor). -/
  | valueErrPhi
  /-- `ValueError: f must be in the domain of the valuation` (domain-identity check). -/
  | valueErrNotInDomain
  /-- `ValueError: the effective degree is only defined for non-zero polynomials`. -/
  | valueErrZero
  /-- `ValueError` from Python `min()` on an empty sequence. -/
  | valueErrEmptyMin
  /-- `IndexError` from `[-1]` on an empty list. -/
  | indexErr
  deriving DecidableEq

/-- An element handed to the valuation: it carries the identity of its
parent ring (Sage's `f.parent()`, compared with `is`) together with its
image in the polynomial domain. -/
structure PElem (K : Type) where
  parent : ℕ
  poly : Poly K

variable (K) in
/-- The `DevelopingValuation` class.  `dom` is the identity of
`self.domain()`, `_phi` the stored key polynomial (the `__init__`
invariants — canonical form, monic, non-constant — are carried as
fields), and `valuations` is the abstract method supplied by
subclasses, valued in the value group `Gam` extended by infinity. -/
structure DV (Gam : Type) [LinearOrder Gam] where
  dom : ℕ
  _phi : Poly K
  hcanon : trim _phi = _phi
  hmonic : _phi.getLastD 0 = 1
  hdeg : 2 ≤ _phi.length
  valuations : Poly K → List (WithTop Gam)

variable {Gam : Type} [LinearOrder Gam]

/-- Accessor `phi()`: return the stored key polynomial `self._phi`. -/
def DV.phi (v : DV K Gam) : Poly K := v._phi

/-- `__quo_rem_monomial(degree)`: quotient and remainder of `x^degree`
divided by `phi` (memoisation is pure caching, semantically the identity). -/
def DV.quo_rem_monomial (v : DV K Gam) (d : ℕ) : Poly K × Poly K :=
  quoRem v.phi (oneShl d)

/-- `__quo_rem(f)`: combine the cached monomial divisions, weighting the
monomial quotients and remainders by the coefficients of `f`. -/
def DV.quo_rem (v : DV K Gam) (f : Poly K) : Poly K × Poly K :=
  let qr := (List.range f.length).map v.quo_rem_monomial
  ( sumP ((f.zip qr).map (fun p => smulP p.1 p.2.1))
  , sumP ((f.zip qr).map (fun p => smulP p.1 p.2.2)) )

/-- The loop body of `__coefficients(f)`: `while f.degree() >= 0:
f, r = quo_rem(f); yield r`, with an explicit fuel argument (the loop
terminates because each division step strictly shrinks `f`; fuel
`f.length` is enough, as proved below). -/
def DV.coefficientsGenAux (v : DV K Gam) : ℕ → Poly K → List (Poly K)
  | 0, _ => []
  | fuel + 1, f =>
    if f = [] then []
    else (v.quo_rem f).2 :: v.coefficientsGenAux fuel (v.quo_rem f).1

/-- `__coefficients(f)`: the general-case (iterative division) expansion. -/
def DV.coefficientsGen (v : DV K Gam) (f : Poly K) : List (Poly K) :=
  v.coefficientsGenAux f.length f

/-- The linear-case (`deg phi == 1`) expansion: substitute
`x -> gen - phi[0]` into `f` and read off the dense coefficient list,
each entry coerced into the polynomial ring (`imap(f.parent(), ...)`). -/
def DV.coefficientsLin (v : DV K Gam) (f : Poly K) : List (Poly K) :=
  (compP f (subP [0, 1] [coeff v.phi 0])).map (fun c => trim [c])

/-- The two-path dispatch of `coefficients(f)` (without the domain
check, which `coefficients` below performs first). -/
def DV.coefficientsPure (v : DV K Gam) (f : Poly K) : List (Poly K) :=
  if degree v.phi = 1 then v.coefficientsLin f else v.coefficientsGen f

/-- `coefficients(f)`: domain-identity check, then dispatch on `deg phi`. -/
def DV.coefficients (v : DV K Gam) (f : PElem K) : Except PyErr (List (Poly K)) :=
  if f.parent = v.dom then .ok (v.coefficientsPure f.poly) else .error .valueErrNotInDomain

/-- The value computation of `_call_(f)` after its domain check:
infinity for the zero polynomial, otherwise `min(valuations(f))`. -/
def DV.callVal (v : DV K Gam) (f : Poly K) : Except PyErr (WithTop Gam) :=
  if f = [] then .ok ⊤
  else
    match minList (v.valuations f) with
    | some w => .ok w
    | none => .error .valueErrEmptyMin

/-- `_call_(f)`: domain-identity check, zero check, then the minimum of
the term-valuation sequence. -/
def DV.call (v : DV K Gam) (f : PElem K) : Except PyErr (WithTop Gam) :=
  if f.parent = v.dom then v.callVal f.poly else .error .valueErrNotInDomain

/-- The index selection of `effective_degree`:
`[i for i,w in enumerate(valuations(f)) if w == v][-1]`. -/
def DV.lastMinIndex (v : DV K Gam) (f : Poly K) (w : WithTop Gam) : Option ℕ :=
  (((v.valuations f).enum.filter (fun p => decide (p.2 = w))).map Prod.fst).getLast?

/-- `effective_degree(f)`: coerce `f` into the domain (no identity
check!), reject zero, then the largest index whose term valuation
equals the valuation of `f`. -/
def DV.effective_degree (v : DV K Gam) (coerce : PElem K → Option (Poly K))
    (f : PElem K) : Except PyErr ℕ :=
  match coerce f with
  | none => .error .typeErrCoerce
  | some g =>
    if g = [] then .error .valueErrZero
    else
      match v.callVal g with
      | .error e => .error e
      | .ok w =>
        match v.lastMinIndex g w with
        | some n => .ok n
        | none => .error .indexErr

section NewtonPolygon

variable {F : Type} [LinearOrderedField F]

/-- Keep a point only when its value is finite (an infinite value sits on
the vertical asymptote and never takes part in a finite hull edge). -/
def toFinitePt (p : ℕ × WithTop F) : Option (ℕ × F) :=
  WithTop.recTopCoe none (fun y => some (p.1, y)) p.2

/-- The finite points among `(i, valuations(f)[i])`. -/
def finitePoints (pts : List (ℕ × WithTop F)) : List (ℕ × F) :=
  pts.filterMap toFinitePt

/-- Orientation test: `cross o a b > 0` iff `o, a, b` make a strict left
turn (the point `b` lies strictly above the line through `o` and `a`). -/
def cross (o a b : ℕ × F) : F :=
  ((a.1 : F) - (o.1 : F)) * (b.2 - o.2) - (a.2 - o.2) * ((b.1 : F) - (o.1 : F))

/-- One step of the monotone-chain lower-hull scan: pop stack points that
stop being on the lower hull once `p` arrives, then push `p`.  The stack
holds the hull so far, most recent point first. -/
def hullStep (p : ℕ × F) : List (ℕ × F) → List (ℕ × F)
  | b :: a :: s => if cross a b p ≤ 0 then hullStep p (a :: s) else p :: b :: a :: s
  | s => p :: s

/-- Modelled from the spec: `sage.geometry.newton_polygon.NewtonPolygon`
(an external collaborator, not part of `src/`) computes "the lower convex
hull of these points in the plane (index on x-axis, value on y-axis),
treating infinity y-values as points on a vertical asymptote that never
participate in finite hull edges", returning "the ordered sequence of
hull vertices (by increasing x)".  Implemented as a monotone-chain scan
over the finite points. -/
def lowerHull (pts : List (ℕ × WithTop F)) : List (ℕ × F) :=
  ((finitePoints pts).foldl (fun s q => hullStep q s) []).reverse

/-- `newton_polygon(f)`: domain-identity check, then the Newton polygon
of `enumerate(valuations(f))`. -/
def DV.newton_polygon {K : Type} [CommRing K] [DecidableEq K] (v : DV K F)
    (f : PElem K) : Except PyErr (List (ℕ × F)) :=
  if f.parent = v.dom then .ok (lowerHull ((v.valuations f.poly).enum))
  else .error .valueErrNotInDomain

end NewtonPolygon

/-- `__init__(parent, phi)`: the validation sequence of the constructor.
`isPolyRing` abstracts `is_PolynomialRing(domain)`, `ngens` the number of
generators of the domain, and `coercedPhi` the outcome of
`domain.coerce(phi)` (`none` when the coercion raises a `TypeError`).
On success the coerced key polynomial is returned for storage. -/
def initDV (isPolyRing : Bool) (ngens : ℕ) (coercedPhi : Option (Poly K)) :
    Except PyErr (Poly K) :=
  if ¬ isPolyRing then .error .typeErrDomainKind
  else if ¬ (ngens = 1) then .error .notImplArity
  else
    match coercedPhi with
    | none => .error .typeErrCoerce
    | some phi =>
      if degree phi ≤ 0 ∨ ¬ ((trim phi).getLastD 0 = 1) then .error .valueErrPhi
      else .ok phi

variable {Gam : Type} [LinearOrder Gam]

/-- Store a validated key polynomial in a fresh valuation instance
(`self._phi = phi` at the end of `__init__`). -/
def mkDV (dom : ℕ) (phi : Poly K) (h1 : trim phi = phi) (h2 : phi.getLastD 0 = 1)
    (h3 : 2 ≤ phi.length) (vals : Poly K → List (WithTop Gam)) : DV K Gam :=
  ⟨dom, phi, h1, h2, h3, vals⟩

/-- Semantic interpretation of a coefficient list as a Mathlib
polynomial (Horner form); the bridge used to reason about the ring
identities satisfied by the list-level arithmetic. -/
noncomputable def toPoly : Poly K → Polynomial K
  | [] => 0
  | a :: f => Polynomial.C a + Polynomial.X * toPoly f

/-- Semantic value of a phi-adic expansion: `sum_i toPoly l[i] * phi^i`
in Horner form. -/
noncomputable def expSum (phi : Polynomial K) : List (Poly K) → Polynomial K
  | [] => 0
  | c :: t => toPoly c + phi * expSum phi t

section ConvexDefs

variable {F : Type} [LinearOrderedField F]

/-- Every three consecutive vertices make a strict left turn: the
vertex sequence is strictly lower-convex. -/
def Turns : List (ℕ × F) → Prop
  | o :: a :: b :: t => 0 < cross o a b ∧ Turns (a :: b :: t)
  | _ => True

/-- The last two entries of the list make a strict left turn towards
`p` (trivially true when fewer than two entries). -/
def endTurn : List (ℕ × F) → (ℕ × F) → Prop
  | [a, b], p => 0 < cross a b p
  | _ :: t, p => endTurn t p
  | [], _ => True

end ConvexDefs

/-- A 2-adic-flavoured valuation of an integer, used by concrete
witness instances. -/
def val2 (c : ℤ) : WithTop ℚ :=
  if c = 0 then ⊤ else if c % 2 = 0 then ((1 : ℚ) : WithTop ℚ) else ((0 : ℚ) : WithTop ℚ)

/-- Witness instance: the Gauss valuation with `phi = x` over `ℤ`
(term valuations: `val2` of each coefficient). -/
def vLin : DV ℤ ℚ :=
  { dom := 0
    _phi := [0, 1]
    hcanon := by decide
    hmonic := by decide
    hdeg := by decide
    valuations := fun f => f.map val2 }

/-- Witness helper: a valuation with `phi = x^2 + x + 1` over `ℤ` and
trivial term valuations. -/
def vGen0 : DV ℤ ℚ :=
  { dom := 0
    _phi := [1, 1, 1]
    hcanon := by decide
    hmonic := by decide
    hdeg := by decide
    valuations := fun _ => [] }

/-- Witness instance: `phi = x^2 + x + 1` over `ℤ`, term valuations
infinity exactly at zero phi-adic coefficients. -/
def vGen : DV ℤ ℚ :=
  { vGen0 with
    valuations := fun f =>
      (vGen0.coefficientsGen f).map
        (fun c => if c = [] then (⊤ : WithTop ℚ) else ((0 : ℚ) : WithTop ℚ)) }

/-! ### Canonical-form (`trim`) infrastructure -/

theorem coeff_cons_succ (a : K) (f : Poly K) (i : ℕ) : coeff (a :: f) (i + 1) = coeff f i := rfl

theorem coeff_eq_zero_of_le {f : Poly K} {i : ℕ} (h : f.length ≤ i) : coeff f i = 0 :=
  List.getD_eq_default _ _ h

theorem trim_cons_nil {a : K} {f : Poly K} (h : trim f = []) :
    trim (a :: f) = if a = 0 then [] else [a] := by
  rw [trim, h]

theorem trim_cons_cons {a b : K} {f g : Poly K} (h : trim f = b :: g) :
    trim (a :: f) = a :: b :: g := by
  rw [trim, h]

theorem trim_length_le (f : Poly K) : (trim f).length ≤ f.length := by
  induction f with
  | nil => simp [trim]
  | cons a f ih =>
    cases h : trim f with
    | nil => rw [trim_cons_nil h]; split <;> simp
    | cons b g =>
      rw [trim_cons_cons h]
      rw [h] at ih
      simpa using Nat.succ_le_succ ih

theorem coeff_trim (f : Poly K) (i : ℕ) : coeff (trim f) i = coeff f i := by
  induction f generalizing i with
  | nil => rfl
  | cons a f ih =>
    cases h : trim f with
    | nil =>
      have hf : ∀ j, coeff f j = 0 := by
        intro j
        have := ih j
        rw [h] at this
        simpa [coeff] using this.symm
      rw [trim_cons_nil h]
      split
      · next ha =>
        cases i with
        | zero => simp [coeff, ha]
        | succ j => simpa [coeff] using (hf j).symm
      · cases i with
        | zero => rfl
        | succ j => simpa [coeff] using (hf j).symm
    | cons b g =>
      rw [trim_cons_cons h]
      cases i with
      | zero => rfl
      | succ j =>
        have := ih j
        rw [h] at this
        simpa [coeff] using this

theorem trim_idem (f : Poly K) : trim (trim f) = trim f := by
  induction f with
  | nil => rfl
  | cons a f ih =>
    cases h : trim f with
    | nil =>
      rw [trim_cons_nil h]
      split
      · rfl
      · next ha => simp [trim, ha]
    | cons b g =>
      rw [h] at ih
      rw [trim_cons_cons h, trim_cons_cons ih]

theorem isCanon_trim (f : Poly K) : IsCanon (trim f) := trim_idem f

theorem trim_getLastD_ne_zero {f : Poly K} (h : trim f ≠ []) : (trim f).getLastD 0 ≠ 0 := by
  induction f with
  | nil => exact absurd rfl h
  | cons a f ih =>
    cases hf : trim f with
    | nil =>
      rw [trim_cons_nil hf] at h ⊢
      split
      · next ha => rw [if_pos ha] at h; exact absurd rfl h
      · next ha => simpa using ha
    | cons b g =>
      rw [trim_cons_cons hf]
      rw [hf] at ih
      have := ih (by simp)
      simpa [List.getLastD_cons] using this

theorem canon_getLastD_ne_zero {f : Poly K} (hc : IsCanon f) (hne : f ≠ []) :
    f.getLastD 0 ≠ 0 := by
  have := trim_getLastD_ne_zero (f := f) (by rw [hc]; exact hne)
  rwa [hc] at this

theorem canon_tail {a : K} {f : Poly K} (hc : IsCanon (a :: f)) : IsCanon f := by
  cases h : trim f with
  | nil =>
    unfold IsCanon at hc
    rw [trim_cons_nil h] at hc
    split at hc
    · exact absurd hc (by simp)
    · have : f = [] := by simpa using hc.symm
      rw [this] at h ⊢
      exact h
  | cons b g =>
    unfold IsCanon at hc
    rw [trim_cons_cons h] at hc
    have : f = b :: g := by simpa using hc.symm
    rw [IsCanon, this, ← h]
    exact trim_idem f

theorem coeff_last {f : Poly K} (h : f ≠ []) : coeff f (f.length - 1) = f.getLastD 0 := by
  induction f with
  | nil => exact absurd rfl h
  | cons a f ih =>
    cases f with
    | nil => rfl
    | cons b g =>
      have := ih (by simp)
      rw [List.getLastD_cons]
      simpa [coeff] using this

theorem canon_ext {f g : Poly K} (hf : IsCanon f) (hg : IsCanon g)
    (h : ∀ i, coeff f i = coeff g i) : f = g := by
  induction f generalizing g with
  | nil =>
    by_contra hne
    have hgne : g ≠ [] := fun hnil => hne (hnil ▸ rfl)
    have hlast := canon_getLastD_ne_zero hg hgne
    have := h (g.length - 1)
    rw [coeff_last hgne] at this
    exact hlast (by simpa [coeff] using this.symm)
  | cons a f ih =>
    cases g with
    | nil =>
      have hfne : (a :: f) ≠ [] := by simp
      have hlast := canon_getLastD_ne_zero hf hfne
      have := h ((a :: f).length - 1)
      rw [coeff_last hfne] at this
      exact absurd (by simpa [coeff] using this) hlast
    | cons b g =>
      have h0 := h 0
      have ha : a = b := h0
      have htail : f = g :=
        ih (canon_tail hf) (canon_tail hg) (fun i => h (i + 1))
      rw [ha, htail]

theorem trim_length_le_of_coeff {f : Poly K} {n : ℕ} (hlen : f.length ≤ n + 1)
    (hc : coeff f n = 0) : (trim f).length ≤ n := by
  by_contra hlt
  push_neg at hlt
  have hle : (trim f).length ≤ n + 1 := le_trans (trim_length_le f) hlen
  have heq : (trim f).length = n + 1 := le_antisymm hle hlt
  have hne : trim f ≠ [] := by
    intro hnil
    rw [hnil] at heq
    exact absurd heq.symm (by simp)
  have := trim_getLastD_ne_zero hne
  rw [← coeff_last hne, heq] at this
  simp only [Nat.add_sub_cancel] at this
  rw [coeff_trim] at this
  exact this hc

theorem canon_length_eq_of_coeff_ne {f : Poly K} {n : ℕ}
    (h : coeff f n ≠ 0) : n < f.length := by
  by_contra hle
  push_neg at hle
  exact h (coeff_eq_zero_of_le hle)

/-! ### Pointwise arithmetic lemmas -/

theorem addAux_length (f g : Poly K) : (addAux f g).length = max f.length g.length := by
  induction f generalizing g with
  | nil => simp [addAux]
  | cons a f ih =>
    cases g with
    | nil => simp [addAux]
    | cons b g => simp [addAux, ih, Nat.succ_max_succ]

theorem coeff_addAux (f g : Poly K) (i : ℕ) :
    coeff (addAux f g) i = coeff f i + coeff g i := by
  induction f generalizing g i with
  | nil => simp [addAux, coeff]
  | cons a f ih =>
    cases g with
    | nil => simp [addAux, coeff]
    | cons b g =>
      cases i with
      | zero => rfl
      | succ j => simpa [addAux, coeff] using ih g j

theorem smulAux_length (c : K) (f : Poly K) : (smulAux c f).length = f.length := by
  simp [smulAux]

theorem coeff_smulAux (c : K) (f : Poly K) (i : ℕ) :
    coeff (smulAux c f) i = c * coeff f i := by
  induction f generalizing i with
  | nil => simp [smulAux, coeff]
  | cons a f ih =>
    cases i with
    | zero => rfl
    | succ j => simpa [smulAux, coeff] using ih j

/-! ### The semantic bridge `toPoly` -/

theorem toPoly_coeff (f : Poly K) (i : ℕ) : (toPoly f).coeff i = coeff f i := by
  induction f generalizing i with
  | nil => simp [toPoly, coeff]
  | cons a f ih =>
    cases i with
    | zero =>
      simp [toPoly, Polynomial.coeff_add, Polynomial.coeff_C, Polynomial.coeff_X_mul_zero, coeff]
    | succ j =>
      simp [toPoly, Polynomial.coeff_add, Polynomial.coeff_C, Polynomial.coeff_X_mul, ih j, coeff]

theorem toPoly_ext {f g : Poly K} (h : ∀ i, coeff f i = coeff g i) : toPoly f = toPoly g := by
  apply Polynomial.ext
  intro n
  rw [toPoly_coeff, toPoly_coeff]
  exact h n

theorem toPoly_trim (f : Poly K) : toPoly (trim f) = toPoly f :=
  toPoly_ext (fun i => coeff_trim f i)

theorem toPoly_inj {f g : Poly K} (hf : IsCanon f) (hg : IsCanon g)
    (h : toPoly f = toPoly g) : f = g :=
  canon_ext hf hg (fun i => by rw [← toPoly_coeff, ← toPoly_coeff, h])

theorem toPoly_addAux (f g : Poly K) : toPoly (addAux f g) = toPoly f + toPoly g := by
  apply Polynomial.ext
  intro n
  simp [toPoly_coeff, coeff_addAux]

theorem toPoly_smulAux (c : K) (f : Poly K) :
    toPoly (smulAux c f) = Polynomial.C c * toPoly f := by
  apply Polynomial.ext
  intro n
  simp [toPoly_coeff, coeff_smulAux, Polynomial.coeff_C_mul]

theorem toPoly_mulAux (f g : Poly K) : toPoly (mulAux f g) = toPoly f * toPoly g := by
  induction f with
  | nil => simp [mulAux, toPoly]
  | cons a f ih =>
    have : toPoly (mulAux (a :: f) g)
        = Polynomial.C a * toPoly g + Polynomial.X * toPoly (mulAux f g) := by
      rw [mulAux, toPoly_addAux, toPoly_smulAux]
      simp [toPoly]
    rw [this, ih, toPoly]
    ring

theorem toPoly_addP (f g : Poly K) : toPoly (addP f g) = toPoly f + toPoly g := by
  rw [addP, toPoly_trim, toPoly_addAux]

theorem toPoly_smulP (c : K) (f : Poly K) : toPoly (smulP c f) = Polynomial.C c * toPoly f := by
  rw [smulP, toPoly_trim, toPoly_smulAux]

theorem toPoly_mulP (f g : Poly K) : toPoly (mulP f g) = toPoly f * toPoly g := by
  rw [mulP, toPoly_trim, toPoly_mulAux]

theorem toPoly_subP (f g : Poly K) : toPoly (subP f g) = toPoly f - toPoly g := by
  rw [subP, toPoly_trim, toPoly_addAux, toPoly_smulAux]
  simp only [map_neg, map_one]
  ring

theorem toPoly_sumP (l : List (Poly K)) : toPoly (sumP l) = (l.map toPoly).sum := by
  induction l with
  | nil => rfl
  | cons c t ih =>
    have hstep : sumP (c :: t) = addP c (sumP t) := rfl
    rw [hstep, toPoly_addP, ih, List.map_cons, List.sum_cons]

theorem toPoly_powP (f : Poly K) (n : ℕ) : toPoly (powP f n) = toPoly f ^ n := by
  induction n with
  | zero =>
    rw [powP, toPoly_trim]
    simp [toPoly]
  | succ n ih => rw [powP, toPoly_mulP, ih, pow_succ]; ring

theorem toPoly_oneShl (d : ℕ) : toPoly (oneShl d : Poly K) = Polynomial.X ^ d := by
  induction d with
  | zero => simp [oneShl, toPoly]
  | succ n ih =>
    have : (oneShl (n + 1) : Poly K) = 0 :: oneShl n := by
      simp [oneShl, List.replicate_succ]
    rw [this, toPoly, ih]
    simp [pow_succ, mul_comm]

theorem toPoly_eq_zero_iff (f : Poly K) : toPoly f = 0 ↔ trim f = [] := by
  constructor
  · intro h
    have h2 : toPoly (trim f) = toPoly ([] : Poly K) := by
      rw [toPoly_trim, h]
      rfl
    exact toPoly_inj (isCanon_trim f) rfl h2
  · intro h
    rw [← toPoly_trim, h]
    rfl

theorem toPoly_ne_zero {f : Poly K} (hc : IsCanon f) (hne : f ≠ []) : toPoly f ≠ 0 := by
  rw [Ne, toPoly_eq_zero_iff, hc]
  exact hne

theorem toPoly_degree_lt {f : Poly K} {n : ℕ} (h : (trim f).length ≤ n) :
    (toPoly f).degree < (n : ℕ) := by
  rw [Polynomial.degree_lt_iff_coeff_zero]
  intro m hm
  have hnm : n ≤ m := by exact_mod_cast hm
  rw [toPoly_coeff, ← coeff_trim]
  exact coeff_eq_zero_of_le (le_trans h hnm)

theorem toPoly_natDegree {f : Poly K} (hc : IsCanon f) (hne : f ≠ []) :
    (toPoly f).natDegree = f.length - 1 := by
  have hup : (toPoly f).degree < (f.length : ℕ) := toPoly_degree_lt (by rw [hc])
  have hne0 : toPoly f ≠ 0 := toPoly_ne_zero hc hne
  have hlow : f.length - 1 ≤ (toPoly f).natDegree := by
    apply Polynomial.le_natDegree_of_ne_zero
    rw [toPoly_coeff, coeff_last hne]
    exact canon_getLastD_ne_zero hc hne
  have hup' : (toPoly f).natDegree < f.length := by
    rwa [← Polynomial.natDegree_lt_iff_degree_lt hne0] at hup
  omega

theorem toPoly_degree_canon {f : Poly K} (hc : IsCanon f) (hne : f ≠ []) :
    (toPoly f).degree = ((f.length - 1 : ℕ) : WithBot ℕ) := by
  rw [Polynomial.degree_eq_natDegree (toPoly_ne_zero hc hne), toPoly_natDegree hc hne]

theorem phi_monic (v : DV K Gam) : (toPoly v.phi).Monic := by
  have hne : v.phi ≠ [] := by
    have := v.hdeg
    intro h
    rw [DV.phi] at h
    rw [h] at this
    simp at this
  have hc : IsCanon v.phi := v.hcanon
  have hm : (v.phi).getLastD 0 = 1 := v.hmonic
  rw [Polynomial.Monic, Polynomial.leadingCoeff, toPoly_natDegree hc hne, toPoly_coeff,
    coeff_last hne]
  exact hm

theorem phi_natDegree (v : DV K Gam) : (toPoly v.phi).natDegree = v.phi.length - 1 := by
  have hne : v.phi ≠ [] := by
    have := v.hdeg
    intro h
    rw [DV.phi] at h
    rw [h] at this
    simp at this
  have hc : IsCanon v.phi := v.hcanon
  exact toPoly_natDegree hc hne

/-! ### Weighted sums over enumerated coefficient lists -/

theorem sum_map_add_split {α : Type} (l : List α) (G H : α → Polynomial K) :
    (l.map (fun p => G p + H p)).sum = (l.map G).sum + (l.map H).sum := by
  induction l with
  | nil => simp
  | cons a t ih => simp [ih]; ring

theorem enumFrom_expand (f : Poly K) (k : ℕ) :
    ((f.enumFrom k).map
      (fun p => Polynomial.C p.2 * Polynomial.X ^ p.1)).sum
    = Polynomial.X ^ k * toPoly f := by
  induction f generalizing k with
  | nil => simp [toPoly]
  | cons a t ih =>
    rw [List.enumFrom_cons]
    simp only [List.map_cons, List.sum_cons, ih (k + 1), toPoly]
    ring

theorem enum_expand (f : Poly K) :
    (f.enum.map (fun p => Polynomial.C p.2 * Polynomial.X ^ p.1)).sum = toPoly f := by
  have := enumFrom_expand f 0
  simpa [List.enum] using this

theorem zip_range_map_eq_enum_map {α : Type} (f : Poly K) (F : ℕ → α) :
    f.zip ((List.range f.length).map F) = f.enum.map (fun p => (p.2, F p.1)) := by
  suffices h : ∀ (g : Poly K) (k : ℕ) (G : ℕ → α),
      g.zip ((List.range g.length).map (fun i => G (i + k)))
        = (g.enumFrom k).map (fun p => (p.2, G p.1)) by
    have := h f 0 F
    simpa [List.enum] using this
  intro g
  induction g with
  | nil => intro k G; rfl
  | cons a t ih =>
    intro k G
    have hr : List.range (a :: t).length = 0 :: (List.range t.length).map Nat.succ := by
      simpa using List.range_succ_eq_map t.length
    rw [List.enumFrom_cons, List.map_cons, hr, List.map_cons, List.zip_cons_cons, List.map_map]
    have hfun : ((fun i => G (i + k)) ∘ Nat.succ) = fun i => G (i + (k + 1)) := by
      funext i
      have harith : Nat.succ i + k = i + (k + 1) := by omega
      simp only [Function.comp_apply, harith]
    rw [hfun, ih (k + 1) G]
    simp only [Nat.zero_add]

/-! ### Correctness of the external division `quoRem` -/

theorem trim_zero_nil : trim [(0 : K)] = [] := by
  simp [trim]

theorem quoRem_spec (phi : Poly K) (hc : IsCanon phi) (hm : phi.getLastD 0 = 1)
    (hd : 2 ≤ phi.length) :
    ∀ f : Poly K,
      IsCanon (quoRem phi f).1 ∧ IsCanon (quoRem phi f).2 ∧
      (quoRem phi f).2.length ≤ phi.length - 1 ∧
      (quoRem phi f).2.length ≤ f.length ∧
      (quoRem phi f).1.length ≤ f.length - (phi.length - 1) ∧
      toPoly f = toPoly (quoRem phi f).1 * toPoly phi + toPoly (quoRem phi f).2 := by
  have hphine : phi ≠ [] := by
    intro h
    rw [h] at hd
    simp at hd
  have hcoeffphi : coeff phi (phi.length - 1) = 1 := by
    rw [coeff_last hphine]
    exact hm
  intro f
  induction f with
  | nil =>
    refine ⟨rfl, rfl, Nat.zero_le _, Nat.zero_le _, Nat.zero_le _, ?_⟩
    show toPoly ([] : Poly K) = toPoly ([] : Poly K) * toPoly phi + toPoly ([] : Poly K)
    simp [toPoly]
  | cons a f ih =>
    obtain ⟨ihq_c, ihr_c, ihr_len, ihr_lenf, ihq_len, ih_eq⟩ := ih
    by_cases hcond : (a :: (quoRem phi f).2).length < phi.length
    · have hunfold : quoRem phi (a :: f) =
          (trim (0 :: (quoRem phi f).1), trim (a :: (quoRem phi f).2)) := by
        rw [quoRem, if_pos hcond]
      rw [hunfold]
      have hq_eq : toPoly (trim (0 :: (quoRem phi f).1))
          = Polynomial.X * toPoly (quoRem phi f).1 := by
        rw [toPoly_trim, toPoly]
        simp
      have hr_eq : toPoly (trim (a :: (quoRem phi f).2))
          = Polynomial.C a + Polynomial.X * toPoly (quoRem phi f).2 := by
        rw [toPoly_trim, toPoly]
      refine ⟨isCanon_trim _, isCanon_trim _, ?_, ?_, ?_, ?_⟩
      · have h1 := trim_length_le (0 :: (quoRem phi f).1)
        have h2 := trim_length_le (a :: (quoRem phi f).2)
        simp only [List.length_cons] at hcond h2 ⊢
        omega
      · have h2 := trim_length_le (a :: (quoRem phi f).2)
        simp only [List.length_cons] at h2 ⊢
        omega
      · rcases Classical.em ((quoRem phi f).1 = []) with hq1 | hq1
        · rw [hq1, trim_zero_nil]
          exact Nat.zero_le _
        · have hlq : 1 ≤ (quoRem phi f).1.length := by
            cases hq : (quoRem phi f).1 with
            | nil => exact absurd hq hq1
            | cons x xs => simp [hq]
          have h1 := trim_length_le (0 :: (quoRem phi f).1)
          simp only [List.length_cons] at h1 ⊢
          omega
      · rw [toPoly, ih_eq, hq_eq, hr_eq]
        ring
    · push_neg at hcond
      have hr1len : (quoRem phi f).2.length = phi.length - 1 := by
        simp only [List.length_cons] at hcond
        omega
      have hr1ne : (quoRem phi f).2 ≠ [] := by
        intro h
        rw [h] at hr1len
        simp at hr1len
        omega
      have hlenr' : (a :: (quoRem phi f).2).length = phi.length := by
        simp only [List.length_cons]
        omega
      have hunfold : quoRem phi (a :: f) =
          (trim ((a :: (quoRem phi f).2).getLastD 0 :: (quoRem phi f).1),
           trim (addAux (a :: (quoRem phi f).2)
             (smulAux (-(a :: (quoRem phi f).2).getLastD 0) phi))) := by
        rw [quoRem, if_neg (by omega)]
      rw [hunfold]
      set c := (a :: (quoRem phi f).2).getLastD 0 with hcdef
      have hcoeffr' : coeff (a :: (quoRem phi f).2) (phi.length - 1) = c := by
        have := coeff_last (f := a :: (quoRem phi f).2) (by simp)
        rwa [hlenr'] at this
      have hslen : (addAux (a :: (quoRem phi f).2) (smulAux (-c) phi)).length
          = phi.length := by
        rw [addAux_length, smulAux_length, hlenr']
        omega
      have hscoeff : coeff (addAux (a :: (quoRem phi f).2) (smulAux (-c) phi))
          (phi.length - 1) = 0 := by
        rw [coeff_addAux, coeff_smulAux, hcoeffr', hcoeffphi]
        ring
      have hrlen : (trim (addAux (a :: (quoRem phi f).2) (smulAux (-c) phi))).length
          ≤ phi.length - 1 := by
        apply trim_length_le_of_coeff _ hscoeff
        rw [hslen]
        omega
      have hq_eq : toPoly (trim (c :: (quoRem phi f).1))
          = Polynomial.C c + Polynomial.X * toPoly (quoRem phi f).1 := by
        rw [toPoly_trim, toPoly]
      have hr_eq : toPoly (trim (addAux (a :: (quoRem phi f).2) (smulAux (-c) phi)))
          = (Polynomial.C a + Polynomial.X * toPoly (quoRem phi f).2)
            - Polynomial.C c * toPoly phi := by
        rw [toPoly_trim, toPoly_addAux, toPoly_smulAux, toPoly]
        simp only [map_neg]
        ring
      refine ⟨isCanon_trim _, isCanon_trim _, hrlen, ?_, ?_, ?_⟩
      · have : (quoRem phi f).2.length ≤ f.length := ihr_lenf
        simp only [List.length_cons]
        omega
      · rcases Classical.em ((quoRem phi f).1 = []) with hq1 | hq1
        · rw [hq1]
          have h1 := trim_length_le [c]
          have hfm : phi.length - 1 ≤ f.length := by
            rw [← hr1len]
            exact ihr_lenf
          simp only [List.length_cons, List.length_nil] at h1 ⊢
          omega
        · have hlq : 1 ≤ (quoRem phi f).1.length := by
            cases hq : (quoRem phi f).1 with
            | nil => exact absurd hq hq1
            | cons x xs => simp [hq]
          have h1 := trim_length_le (c :: (quoRem phi f).1)
          simp only [List.length_cons] at h1 ⊢
          omega
      · rw [toPoly, ih_eq, hq_eq, hr_eq]
        ring

/-! ### Correctness of the class-level division `__quo_rem` -/

theorem isCanon_nil : IsCanon ([] : Poly K) := rfl

theorem isCanon_sumP (l : List (Poly K)) : IsCanon (sumP l) := by
  cases l with
  | nil => rfl
  | cons c t => exact isCanon_trim _

theorem addP_length_le {f g : Poly K} {n : ℕ} (hf : f.length ≤ n) (hg : g.length ≤ n) :
    (addP f g).length ≤ n := by
  have := trim_length_le (addAux f g)
  rw [addAux_length] at this
  exact le_trans this (max_le hf hg)

theorem sumP_length_le {l : List (Poly K)} {n : ℕ} (h : ∀ p ∈ l, p.length ≤ n) :
    (sumP l).length ≤ n := by
  induction l with
  | nil => exact Nat.zero_le _
  | cons c t ih =>
    have hstep : sumP (c :: t) = addP c (sumP t) := rfl
    rw [hstep]
    exact addP_length_le (h c (by simp)) (ih (fun p hp => h p (by simp [hp])))

theorem smulP_length_le (c : K) (f : Poly K) : (smulP c f).length ≤ f.length := by
  have := trim_length_le (smulAux c f)
  rwa [smulAux_length] at this

theorem fst_lt_of_mem_enum {α : Type} {l : List α} {q : ℕ × α} (h : q ∈ l.enum) :
    q.1 < l.length := by
  rw [List.mem_enum_iff_getElem?] at h
  exact (List.getElem?_eq_some_iff.1 h).1

theorem phi_facts (v : DV K Gam) :
    IsCanon v.phi ∧ v.phi.getLastD 0 = 1 ∧ 2 ≤ v.phi.length :=
  ⟨v.hcanon, v.hmonic, v.hdeg⟩

theorem DV_quo_rem_eq (v : DV K Gam) (f : Poly K) :
    v.quo_rem f =
      ( sumP (f.enum.map (fun p => smulP p.2 (quoRem v.phi (oneShl p.1)).1))
      , sumP (f.enum.map (fun p => smulP p.2 (quoRem v.phi (oneShl p.1)).2)) ) := by
  show ( sumP ((f.zip ((List.range f.length).map v.quo_rem_monomial)).map
           (fun p => smulP p.1 p.2.1))
       , sumP ((f.zip ((List.range f.length).map v.quo_rem_monomial)).map
           (fun p => smulP p.1 p.2.2)) ) = _
  rw [zip_range_map_eq_enum_map f v.quo_rem_monomial, List.map_map, List.map_map]
  rfl

theorem DV_quo_rem_spec (v : DV K Gam) (f : Poly K) :
    IsCanon (v.quo_rem f).1 ∧ IsCanon (v.quo_rem f).2 ∧
    (v.quo_rem f).2.length ≤ v.phi.length - 1 ∧
    (v.quo_rem f).1.length ≤ f.length - (v.phi.length - 1) ∧
    toPoly f = toPoly (v.quo_rem f).1 * toPoly v.phi + toPoly (v.quo_rem f).2 := by
  obtain ⟨hc, hm, hd⟩ := phi_facts v
  have hspec := quoRem_spec v.phi hc hm hd
  rw [DV_quo_rem_eq]
  refine ⟨isCanon_sumP _, isCanon_sumP _, ?_, ?_, ?_⟩
  · apply sumP_length_le
    intro p hp
    rcases List.mem_map.1 hp with ⟨q, hq, rfl⟩
    exact le_trans (smulP_length_le _ _) (hspec (oneShl q.1)).2.2.1
  · apply sumP_length_le
    intro p hp
    rcases List.mem_map.1 hp with ⟨q, hq, rfl⟩
    have h1 : (quoRem v.phi (oneShl q.1)).1.length
        ≤ (oneShl q.1 : Poly K).length - (v.phi.length - 1) :=
      (hspec (oneShl q.1)).2.2.2.2.1
    have h2 : (oneShl q.1 : Poly K).length = q.1 + 1 := by
      simp [oneShl]
    have h3 : q.1 < f.length := fst_lt_of_mem_enum hq
    have := smulP_length_le q.2 (quoRem v.phi (oneShl q.1)).1
    omega
  · have hqsum : toPoly (sumP (f.enum.map (fun p => smulP p.2 (quoRem v.phi (oneShl p.1)).1)))
        = (f.enum.map (fun p => Polynomial.C p.2 * toPoly (quoRem v.phi (oneShl p.1)).1)).sum := by
      rw [toPoly_sumP, List.map_map]
      congr 1
      apply List.map_congr_left
      intro p _
      simp [toPoly_smulP]
    have hrsum : toPoly (sumP (f.enum.map (fun p => smulP p.2 (quoRem v.phi (oneShl p.1)).2)))
        = (f.enum.map (fun p => Polynomial.C p.2 * toPoly (quoRem v.phi (oneShl p.1)).2)).sum := by
      rw [toPoly_sumP, List.map_map]
      congr 1
      apply List.map_congr_left
      intro p _
      simp [toPoly_smulP]
    show toPoly f = toPoly (sumP _) * toPoly v.phi + toPoly (sumP _)
    rw [hqsum, hrsum, ← List.sum_map_mul_right, ← sum_map_add_split]
    have hpt : ∀ p ∈ f.enum,
        (Polynomial.C p.2 * toPoly (quoRem v.phi (oneShl p.1)).1 * toPoly v.phi
          + Polynomial.C p.2 * toPoly (quoRem v.phi (oneShl p.1)).2)
        = Polynomial.C p.2 * Polynomial.X ^ p.1 := by
      intro p _
      have hid := (hspec (oneShl p.1)).2.2.2.2.2
      rw [← toPoly_oneShl, hid]
      ring
    rw [List.map_congr_left hpt, enum_expand]

/-! ### The general-case expansion loop -/

theorem DV_quo_rem_fst_lt (v : DV K Gam) {f : Poly K} (hne : f ≠ []) :
    (v.quo_rem f).1.length < f.length := by
  have hq := (DV_quo_rem_spec v f).2.2.2.1
  have hd := v.hdeg
  have hflen : 1 ≤ f.length := by
    cases f with
    | nil => exact absurd rfl hne
    | cons a t => simp
  have : (DV.phi v).length = v._phi.length := rfl
  omega

theorem coefficientsGenAux_succ (v : DV K Gam) :
    ∀ (fuel : ℕ) (f : Poly K), f.length ≤ fuel →
      v.coefficientsGenAux (fuel + 1) f = v.coefficientsGenAux fuel f := by
  intro fuel
  induction fuel with
  | zero =>
    intro f hf
    have : f = [] := by
      cases f with
      | nil => rfl
      | cons a t => simp at hf
    rw [this]
    rfl
  | succ fuel ih =>
    intro f hf
    by_cases hne : f = []
    · rw [hne]
      rfl
    · have h1 : v.coefficientsGenAux (fuel + 1 + 1) f
          = (v.quo_rem f).2 :: v.coefficientsGenAux (fuel + 1) (v.quo_rem f).1 := by
        rw [DV.coefficientsGenAux, if_neg hne]
      have h2 : v.coefficientsGenAux (fuel + 1) f
          = (v.quo_rem f).2 :: v.coefficientsGenAux fuel (v.quo_rem f).1 := by
        rw [DV.coefficientsGenAux, if_neg hne]
      rw [h1, h2, ih (v.quo_rem f).1 (by have := DV_quo_rem_fst_lt v hne; omega)]

theorem coefficientsGenAux_of_le (v : DV K Gam) :
    ∀ (fuel : ℕ) (f : Poly K), f.length ≤ fuel →
      v.coefficientsGenAux fuel f = v.coefficientsGen f := by
  intro fuel
  induction fuel with
  | zero =>
    intro f hf
    have : f = [] := by
      cases f with
      | nil => rfl
      | cons a t => simp at hf
    rw [this]
    rfl
  | succ fuel ih =>
    intro f hf
    rcases Nat.lt_or_ge f.length (fuel + 1) with hlt | hge
    · rw [coefficientsGenAux_succ v fuel f (by omega), ih f (by omega)]
    · have hexact : f.length = fuel + 1 := by omega
      rw [DV.coefficientsGen, hexact]

theorem coefficientsGen_eq (v : DV K Gam) (f : Poly K) :
    v.coefficientsGen f =
      if f = [] then []
      else (v.quo_rem f).2 :: v.coefficientsGen (v.quo_rem f).1 := by
  by_cases hne : f = []
  · rw [if_pos hne, hne]
    rfl
  · rw [if_neg hne]
    have hflen : 1 ≤ f.length := by
      cases f with
      | nil => exact absurd rfl hne
      | cons a t => simp
    obtain ⟨n, hn⟩ : ∃ n, f.length = n + 1 := ⟨f.length - 1, by omega⟩
    have h1 : v.coefficientsGen f
        = (v.quo_rem f).2 :: v.coefficientsGenAux n (v.quo_rem f).1 := by
      rw [DV.coefficientsGen, hn, DV.coefficientsGenAux, if_neg hne]
    rw [h1, coefficientsGenAux_of_le v n (v.quo_rem f).1
      (by have := DV_quo_rem_fst_lt v hne; omega)]

theorem coefficientsGen_bounded_spec (v : DV K Gam) :
    ∀ (n : ℕ) (f : Poly K), f.length ≤ n →
      expSum (toPoly v.phi) (v.coefficientsGen f) = toPoly f ∧
      (∀ c ∈ v.coefficientsGen f, IsCanon c ∧ c.length ≤ v.phi.length - 1) ∧
      (v.coefficientsGen f).length ≤ f.length ∧
      (trim f ≠ [] → ∀ c, (v.coefficientsGen f).getLast? = some c → c ≠ []) := by
  intro n
  induction n with
  | zero =>
    intro f hf
    have hfe : f = [] := by
      cases f with
      | nil => rfl
      | cons a t => simp at hf
    subst hfe
    refine ⟨rfl, ?_, Nat.le_refl _, ?_⟩
    · intro c hc
      simp [DV.coefficientsGen, DV.coefficientsGenAux] at hc
    · intro htf
      exact absurd rfl htf
  | succ n ih =>
    intro f hf
    by_cases hne : f = []
    · subst hne
      refine ⟨rfl, ?_, Nat.le_refl _, ?_⟩
      · intro c hc
        simp [DV.coefficientsGen, DV.coefficientsGenAux] at hc
      · intro htf
        exact absurd rfl htf
    · have heq : v.coefficientsGen f
          = (v.quo_rem f).2 :: v.coefficientsGen (v.quo_rem f).1 := by
        rw [coefficientsGen_eq v f, if_neg hne]
      have hqlt : (v.quo_rem f).1.length < f.length := DV_quo_rem_fst_lt v hne
      obtain ⟨ihrec, ihent, ihlen, ihlast⟩ := ih (v.quo_rem f).1 (by omega)
      obtain ⟨hqc, hrc, hrlen, hqlen, hid⟩ := DV_quo_rem_spec v f
      have hflen : 1 ≤ f.length := by
        cases f with
        | nil => exact absurd rfl hne
        | cons a t => simp
      refine ⟨?_, ?_, ?_, ?_⟩
      · rw [heq, expSum, ihrec, hid]
        ring
      · intro c hc
        rw [heq] at hc
        rcases List.mem_cons.1 hc with hc | hc
        · subst hc
          exact ⟨hrc, hrlen⟩
        · exact ihent c hc
      · rw [heq]
        simp only [List.length_cons]
        omega
      · intro htf c hlast
        rw [heq] at hlast
        by_cases hq : (v.quo_rem f).1 = []
        · have hgen : v.coefficientsGen (v.quo_rem f).1 = [] := by
            rw [hq]
            rfl
          rw [hgen] at hlast
          simp at hlast
          subst hlast
          intro hrnil
          have hfz : toPoly f ≠ 0 := by
            rw [Ne, toPoly_eq_zero_iff]
            exact htf
          rw [hid, hq, hrnil] at hfz
          simp [toPoly] at hfz
        · have hgenne : v.coefficientsGen (v.quo_rem f).1 ≠ [] := by
            rw [coefficientsGen_eq v _, if_neg hq]
            simp
          cases hrest : v.coefficientsGen (v.quo_rem f).1 with
          | nil => exact absurd hrest hgenne
          | cons x xs =>
            rw [hrest] at hlast
            rw [List.getLast?_cons_cons] at hlast
            apply ihlast _ c
            · rw [hrest]
              exact hlast
            · rw [hqc]
              exact hq

/-! ### The linear-case expansion -/

theorem toPoly_compP (f g : Poly K) : toPoly (compP f g) = (toPoly f).comp (toPoly g) := by
  induction f with
  | nil => simp [compP, toPoly]
  | cons a t ih =>
    have hstep : compP (a :: t) g = addP (trim [a]) (mulP g (compP t g)) := rfl
    rw [hstep, toPoly_addP, toPoly_mulP, toPoly_trim, ih]
    show toPoly [a] + toPoly g * (toPoly t).comp (toPoly g)
        = (toPoly (a :: t)).comp (toPoly g)
    simp only [toPoly, Polynomial.add_comp, Polynomial.mul_comp, Polynomial.X_comp,
      Polynomial.C_comp, mul_zero, add_zero]

theorem isCanon_compP (f g : Poly K) : IsCanon (compP f g) := by
  cases f with
  | nil => rfl
  | cons a t => exact isCanon_trim _

theorem expSum_map_const (phiP : Polynomial K) (g : Poly K) :
    expSum phiP (g.map (fun c => trim [c])) = (toPoly g).comp phiP := by
  induction g with
  | nil => simp [expSum, toPoly]
  | cons a t ih =>
    rw [List.map_cons, expSum, ih, toPoly_trim]
    show toPoly [a] + phiP * (toPoly t).comp phiP = (toPoly (a :: t)).comp phiP
    simp only [toPoly, Polynomial.add_comp, Polynomial.mul_comp, Polynomial.X_comp,
      Polynomial.C_comp, mul_zero, add_zero]

theorem phi_linear_form (v : DV K Gam) (h2 : v.phi.length = 2) :
    v.phi = [coeff v.phi 0, 1] := by
  obtain ⟨a, b, hab⟩ : ∃ a b, v.phi = [a, b] := by
    cases hp : v.phi with
    | nil => rw [hp] at h2; simp at h2
    | cons x t =>
      cases t with
      | nil => rw [hp] at h2; simp at h2
      | cons y t2 =>
        cases t2 with
        | nil => exact ⟨x, y, rfl⟩
        | cons z t3 => rw [hp] at h2; simp at h2
  have hm : v.phi.getLastD 0 = 1 := v.hmonic
  rw [hab] at hm
  simp [List.getLastD_cons] at hm
  rw [hab, hm]
  rfl

theorem toPoly_phi_linear (v : DV K Gam) (h2 : v.phi.length = 2) :
    toPoly v.phi = Polynomial.X + Polynomial.C (coeff v.phi 0) := by
  conv_lhs => rw [phi_linear_form v h2]
  simp [toPoly, add_comm]

theorem toPoly_linSub (c : K) :
    toPoly (subP [0, 1] [c] : Poly K) = Polynomial.X - Polynomial.C c := by
  rw [toPoly_subP]
  simp [toPoly]

theorem recon_lin (v : DV K Gam) (hlin : v.phi.length = 2) (f : Poly K) :
    expSum (toPoly v.phi) (v.coefficientsLin f) = toPoly f := by
  rw [DV.coefficientsLin, expSum_map_const, toPoly_compP, toPoly_linSub,
    toPoly_phi_linear v hlin, Polynomial.comp_assoc]
  simp [Polynomial.sub_comp, Polynomial.X_comp, Polynomial.C_comp, Polynomial.comp_X]

theorem coefficientsLin_entries (v : DV K Gam) (f : Poly K) :
    ∀ c ∈ v.coefficientsLin f, IsCanon c ∧ c.length ≤ 1 := by
  intro c hc
  rcases List.mem_map.1 hc with ⟨x, _, rfl⟩
  exact ⟨isCanon_trim _, trim_length_le [x]⟩

theorem compP_linSub_ne_nil (v : DV K Gam) (hlin : v.phi.length = 2) {f : Poly K}
    (htf : trim f ≠ []) : compP f (subP [0, 1] [coeff v.phi 0]) ≠ [] := by
  intro hnil
  have h1 : toPoly (compP f (subP [0, 1] [coeff v.phi 0])) = 0 := by
    rw [hnil]
    rfl
  rw [toPoly_compP, toPoly_linSub] at h1
  have h2 : ((toPoly f).comp (Polynomial.X - Polynomial.C (coeff v.phi 0))).comp
      (Polynomial.X + Polynomial.C (coeff v.phi 0)) = toPoly f := by
    rw [Polynomial.comp_assoc]
    simp [Polynomial.sub_comp, Polynomial.X_comp, Polynomial.C_comp, Polynomial.comp_X]
  rw [h1] at h2
  simp only [Polynomial.zero_comp] at h2
  have hf0 : toPoly f ≠ 0 := by
    rw [← toPoly_trim]
    exact toPoly_ne_zero (isCanon_trim f) htf
  exact hf0 h2.symm

theorem coefficientsLin_last (v : DV K Gam) (hlin : v.phi.length = 2) {f : Poly K}
    (htf : trim f ≠ []) :
    ∀ c, (v.coefficientsLin f).getLast? = some c → c ≠ [] := by
  intro c hc
  rw [DV.coefficientsLin, List.getLast?_map] at hc
  have hgne := compP_linSub_ne_nil v hlin htf
  cases hg : (compP f (subP [0, 1] [coeff v.phi 0])).getLast? with
  | none =>
    rw [hg] at hc
    simp at hc
  | some x =>
    rw [hg] at hc
    simp at hc
    have hxne : x ≠ 0 := by
      have hcanon := isCanon_compP f (subP [0, 1] [coeff v.phi 0])
      have := canon_getLastD_ne_zero hcanon hgne
      have hlast : (compP f (subP [0, 1] [coeff v.phi 0])).getLastD 0 = x := by
        rw [List.getLastD_eq_getLast?, hg]
        rfl
      rwa [hlast] at this
    rw [← hc]
    rw [trim_cons_nil (f := ([] : Poly K)) rfl, if_neg hxne]
    simp

/-! ### Uniqueness of phi-adic expansions -/

theorem expSum_cons (phiP : Polynomial K) (c : Poly K) (t : List (Poly K)) :
    expSum phiP (c :: t) = toPoly c + phiP * expSum phiP t := rfl

theorem expSum_ne_zero {phiP : Polynomial K} (hm : phiP.Monic)
    (hd : (0 : WithBot ℕ) < phiP.degree) :
    ∀ l : List (Poly K),
      (∀ c ∈ l, IsCanon c ∧ (toPoly c).degree < phiP.degree) →
      (∀ c, l.getLast? = some c → c ≠ []) →
      l ≠ [] → expSum phiP l ≠ 0 := by
  intro l
  induction l with
  | nil =>
    intro _ _ h
    exact absurd rfl h
  | cons c t ih =>
    intro hent hlast _
    cases t with
    | nil =>
      have hc : c ≠ [] := hlast c rfl
      have hone : expSum phiP [c] = toPoly c := by
        rw [expSum_cons]
        show toPoly c + phiP * expSum phiP [] = toPoly c
        rw [expSum]
        ring
      rw [hone]
      exact toPoly_ne_zero (hent c (by simp)).1 hc
    | cons d t2 =>
      have hSne : expSum phiP (d :: t2) ≠ 0 := by
        apply ih (fun x hx => hent x (by simp [hx])) _ (by simp)
        intro x hx
        apply hlast x
        rw [List.getLast?_cons_cons]
        exact hx
      have hphiS : phiP * expSum phiP (d :: t2) ≠ 0 := by
        rw [Ne, hm.mul_right_eq_zero_iff]
        exact hSne
      have hdeg2 : phiP.degree ≤ (phiP * expSum phiP (d :: t2)).degree := by
        rw [mul_comm, hm.degree_mul]
        have h0 : (0 : WithBot ℕ) ≤ (expSum phiP (d :: t2)).degree :=
          Polynomial.zero_le_degree_iff.2 hSne
        calc phiP.degree = 0 + phiP.degree := by rw [zero_add]
          _ ≤ (expSum phiP (d :: t2)).degree + phiP.degree := add_le_add_right h0 _
      have hcd : (toPoly c).degree < (phiP * expSum phiP (d :: t2)).degree :=
        lt_of_lt_of_le (hent c (by simp)).2 hdeg2
      rw [expSum_cons]
      intro h0
      have hdegeq := Polynomial.degree_add_eq_right_of_degree_lt hcd
      rw [h0, Polynomial.degree_zero] at hdegeq
      exact hphiS (Polynomial.degree_eq_bot.1 hdegeq.symm)

theorem expSum_inj {phiP : Polynomial K} (hm : phiP.Monic)
    (hd : (0 : WithBot ℕ) < phiP.degree) :
    ∀ l1 l2 : List (Poly K),
      (∀ c ∈ l1, IsCanon c ∧ (toPoly c).degree < phiP.degree) →
      (∀ c ∈ l2, IsCanon c ∧ (toPoly c).degree < phiP.degree) →
      (∀ c, l1.getLast? = some c → c ≠ []) →
      (∀ c, l2.getLast? = some c → c ≠ []) →
      expSum phiP l1 = expSum phiP l2 → l1 = l2 := by
  intro l1
  induction l1 with
  | nil =>
    intro l2 _ h2 _ hl2 heq
    cases l2 with
    | nil => rfl
    | cons c t =>
      exact absurd (by rw [← heq]; rfl)
        (expSum_ne_zero hm hd (c :: t) h2 hl2 (by simp))
  | cons c1 t1 ih =>
    intro l2 h1 h2 hl1 hl2 heq
    cases l2 with
    | nil =>
      exact absurd (by rw [heq]; rfl)
        (expSum_ne_zero hm hd (c1 :: t1) h1 hl1 (by simp))
    | cons c2 t2 =>
      rw [expSum_cons, expSum_cons] at heq
      have hS : expSum phiP t1 = expSum phiP t2 := by
        by_contra hne
        have hsub : toPoly c1 - toPoly c2
            = phiP * (expSum phiP t2 - expSum phiP t1) := by
          linear_combination heq
        have hdiffne : expSum phiP t2 - expSum phiP t1 ≠ 0 :=
          sub_ne_zero.2 (Ne.symm hne)
        have hrhs : phiP.degree ≤ (phiP * (expSum phiP t2 - expSum phiP t1)).degree := by
          rw [mul_comm, hm.degree_mul]
          have h0 : (0 : WithBot ℕ) ≤ (expSum phiP t2 - expSum phiP t1).degree :=
            Polynomial.zero_le_degree_iff.2 hdiffne
          calc phiP.degree = 0 + phiP.degree := by rw [zero_add]
            _ ≤ (expSum phiP t2 - expSum phiP t1).degree + phiP.degree := add_le_add_right h0 _
        have hlhs : (toPoly c1 - toPoly c2).degree < phiP.degree := by
          apply lt_of_le_of_lt (Polynomial.degree_sub_le _ _)
          exact max_lt (h1 c1 (by simp)).2 (h2 c2 (by simp)).2
        rw [hsub] at hlhs
        exact absurd hrhs (not_le.2 hlhs)
      have hc : toPoly c1 = toPoly c2 := by
        rw [hS] at heq
        exact add_right_cancel heq
      have hceq : c1 = c2 := toPoly_inj (h1 c1 (by simp)).1 (h2 c2 (by simp)).1 hc
      have hteq : t1 = t2 := by
        cases t1 with
        | nil =>
          cases t2 with
          | nil => rfl
          | cons d2 s2 =>
            exfalso
            apply expSum_ne_zero hm hd (d2 :: s2) (fun x hx => h2 x (by simp [hx]))
              (fun x hx => hl2 x (by rw [List.getLast?_cons_cons]; exact hx)) (by simp)
            rw [← hS]
            rfl
        | cons d1 s1 =>
          cases t2 with
          | nil =>
            exfalso
            apply expSum_ne_zero hm hd (d1 :: s1) (fun x hx => h1 x (by simp [hx]))
              (fun x hx => hl1 x (by rw [List.getLast?_cons_cons]; exact hx)) (by simp)
            rw [hS]
            rfl
          | cons d2 s2 =>
            exact ih (d2 :: s2) (fun x hx => h1 x (by simp [hx]))
              (fun x hx => h2 x (by simp [hx]))
              (fun x hx => hl1 x (by rw [List.getLast?_cons_cons]; exact hx))
              (fun x hx => hl2 x (by rw [List.getLast?_cons_cons]; exact hx)) hS
      rw [hceq, hteq]

/-! ### Reconstruction at the list level -/

theorem enumFrom_expSum (phi : Poly K) :
    ∀ (t : List (Poly K)) (k : ℕ),
      ((t.enumFrom k).map (fun p => toPoly p.2 * toPoly phi ^ p.1)).sum
        = toPoly phi ^ k * expSum (toPoly phi) t := by
  intro t
  induction t with
  | nil =>
    intro k
    simp [expSum]
  | cons c s ih =>
    intro k
    rw [List.enumFrom_cons, List.map_cons, List.sum_cons, ih (k + 1), expSum_cons]
    ring

theorem toPoly_phiPowSum (phi : Poly K) (l : List (Poly K)) :
    toPoly (phiPowSum phi l) = expSum (toPoly phi) l := by
  rw [phiPowSum, toPoly_sumP, List.map_map]
  have hfun : (toPoly ∘ fun p : ℕ × Poly K => mulP p.2 (powP phi p.1))
      = fun p : ℕ × Poly K => toPoly p.2 * toPoly phi ^ p.1 := by
    funext p
    simp [toPoly_mulP, toPoly_powP]
  rw [hfun]
  have := enumFrom_expSum phi l 0
  simpa [List.enum] using this

theorem isCanon_phiPowSum (phi : Poly K) (l : List (Poly K)) :
    IsCanon (phiPowSum phi l) := isCanon_sumP _

theorem degree_phi_eq_one_iff (v : DV K Gam) : degree v.phi = 1 ↔ v.phi.length = 2 := by
  have hc : IsCanon v.phi := v.hcanon
  rw [degree, hc]
  omega

theorem phi_degree_pos (v : DV K Gam) : (0 : WithBot ℕ) < (toPoly v.phi).degree := by
  have hc : IsCanon v.phi := v.hcanon
  have hd : 2 ≤ v.phi.length := v.hdeg
  have hne : v.phi ≠ [] := by
    intro h
    rw [h] at hd
    simp at hd
  rw [toPoly_degree_canon hc hne]
  exact_mod_cast Nat.lt_of_lt_of_le Nat.zero_lt_one (by omega)

theorem recon_gen_list (v : DV K Gam) (f : Poly K) (hf : IsCanon f) :
    phiPowSum v.phi (v.coefficientsGen f) = f := by
  apply toPoly_inj (isCanon_phiPowSum _ _) hf
  rw [toPoly_phiPowSum]
  exact (coefficientsGen_bounded_spec v f.length f (Nat.le_refl _)).1

theorem recon_lin_list (v : DV K Gam) (hlin : v.phi.length = 2) (f : Poly K)
    (hf : IsCanon f) :
    phiPowSum v.phi (v.coefficientsLin f) = f := by
  apply toPoly_inj (isCanon_phiPowSum _ _) hf
  rw [toPoly_phiPowSum]
  exact recon_lin v hlin f

theorem recon_pure_list (v : DV K Gam) (f : Poly K) (hf : IsCanon f) :
    phiPowSum v.phi (v.coefficientsPure f) = f := by
  rw [DV.coefficientsPure]
  split
  · next hdeg1 => exact recon_lin_list v ((degree_phi_eq_one_iff v).1 hdeg1) f hf
  · exact recon_gen_list v f hf

theorem entry_degree_lt (v : DV K Gam) {c : Poly K} (hc : IsCanon c)
    (hlen : c.length ≤ v.phi.length - 1) :
    (toPoly c).degree < (toPoly v.phi).degree := by
  have hφc : IsCanon v.phi := v.hcanon
  have hd : 2 ≤ v.phi.length := v.hdeg
  have hne : v.phi ≠ [] := by
    intro h
    rw [h] at hd
    simp at hd
  rw [toPoly_degree_canon hφc hne]
  apply toPoly_degree_lt
  rw [hc]
  exact hlen

theorem lin_eq_gen (v : DV K Gam) (hlin : v.phi.length = 2) (f : Poly K)
    (hf : IsCanon f) :
    v.coefficientsLin f = v.coefficientsGen f := by
  by_cases hne : f = []
  · subst hne
    have h1 : v.coefficientsLin ([] : Poly K) = [] := rfl
    have h2 : v.coefficientsGen ([] : Poly K) = [] := rfl
    rw [h1, h2]
  · obtain ⟨hrec, hent, _, hlast⟩ :=
      coefficientsGen_bounded_spec v f.length f (Nat.le_refl _)
    apply expSum_inj (phi_monic v) (phi_degree_pos v)
    · intro c hcm
      obtain ⟨hcc, hclen⟩ := coefficientsLin_entries v f c hcm
      exact ⟨hcc, entry_degree_lt v hcc (by omega)⟩
    · intro c hcm
      obtain ⟨hcc, hclen⟩ := hent c hcm
      exact ⟨hcc, entry_degree_lt v hcc hclen⟩
    · exact coefficientsLin_last v hlin (by rw [hf]; exact hne)
    · exact hlast (by rw [hf]; exact hne)
    · rw [recon_lin v hlin f]
      exact ((coefficientsGen_bounded_spec v f.length f (Nat.le_refl _)).1).symm

/-! ### The reduction layer: minima and last minimal index -/

theorem minList_isSome {A : Type} [LinearOrder A] {l : List A} (h : l ≠ []) :
    ∃ m, minList l = some m := by
  cases l with
  | nil => exact absurd rfl h
  | cons a t => exact ⟨_, rfl⟩

theorem minList_mem {A : Type} [LinearOrder A] :
    ∀ {l : List A} {m : A}, minList l = some m → m ∈ l := by
  intro l
  induction l with
  | nil => intro m h; simp [minList] at h
  | cons a t ih =>
    intro m h
    rw [minList] at h
    cases ht : minList t with
    | none =>
      rw [ht] at h
      simp [Option.elim] at h
      simp [← h]
    | some b =>
      rw [ht] at h
      simp [Option.elim] at h
      rcases min_cases a b with ⟨hmin, _⟩ | ⟨hmin, _⟩
      · rw [hmin] at h
        simp [← h]
      · rw [hmin] at h
        have := ih ht
        rw [← h]
        simp [this]

theorem minList_le {A : Type} [LinearOrder A] :
    ∀ {l : List A} {m : A}, minList l = some m → ∀ x ∈ l, m ≤ x := by
  intro l
  induction l with
  | nil => intro m h; simp [minList] at h
  | cons a t ih =>
    intro m h x hx
    rw [minList] at h
    cases ht : minList t with
    | none =>
      have htnil : t = [] := by
        cases t with
        | nil => rfl
        | cons b s => simp [minList] at ht
      rw [ht] at h
      simp [Option.elim] at h
      rw [htnil] at hx
      simp at hx
      rw [← h, hx]
    | some b =>
      rw [ht] at h
      simp [Option.elim] at h
      rcases List.mem_cons.1 hx with hx | hx
      · rw [← h, hx]
        exact min_le_left a b
      · rw [← h]
        exact le_trans (min_le_right a b) (ih ht x hx)

theorem getLast?_mem {A : Type} : ∀ {l : List A} {a : A}, l.getLast? = some a → a ∈ l := by
  intro l
  induction l with
  | nil => intro a h; simp at h
  | cons b t ih =>
    intro a h
    cases t with
    | nil =>
      simp at h
      simp [h]
    | cons c s =>
      rw [List.getLast?_cons_cons] at h
      exact List.mem_cons_of_mem b (ih h)

theorem mem_enumFrom_fst_ge {α : Type} :
    ∀ {l : List α} {k : ℕ} {q : ℕ × α}, q ∈ l.enumFrom k → k ≤ q.1 := by
  intro l
  induction l with
  | nil => intro k q h; simp at h
  | cons a t ih =>
    intro k q h
    rw [List.enumFrom_cons] at h
    rcases List.mem_cons.1 h with h | h
    · rw [h]
    · exact le_trans (Nat.le_succ k) (ih h)

theorem pairwise_fst_lt_enumFrom {α : Type} :
    ∀ (l : List α) (k : ℕ), (l.enumFrom k).Pairwise (fun p q => p.1 < q.1) := by
  intro l
  induction l with
  | nil => intro k; simp
  | cons a t ih =>
    intro k
    rw [List.enumFrom_cons]
    refine List.Pairwise.cons ?_ (ih (k + 1))
    intro q hq
    have := mem_enumFrom_fst_ge hq
    simp only []
    omega

theorem pairwise_fst_lt_enum {α : Type} (l : List α) :
    l.enum.Pairwise (fun p q => p.1 < q.1) := pairwise_fst_lt_enumFrom l 0

theorem le_getLast_of_pairwise :
    ∀ {l : List ℕ}, l.Pairwise (· < ·) → ∀ {a n : ℕ}, a ∈ l → l.getLast? = some n → a ≤ n := by
  intro l
  induction l with
  | nil => intro _ a n ha; simp at ha
  | cons b t ih =>
    intro hp a n ha hn
    cases t with
    | nil =>
      simp at ha hn
      omega
    | cons c s =>
      rw [List.getLast?_cons_cons] at hn
      rcases List.mem_cons.1 ha with ha | ha
      · have hnn := getLast?_mem hn
        have := (List.pairwise_cons.1 hp).1 n hnn
        omega
      · exact ih (List.pairwise_cons.1 hp).2 ha hn

/-! ### Expansion of a constant polynomial -/

theorem trim_singleton {c : K} (hc : c ≠ 0) : trim [c] = [c] := by
  rw [trim_cons_nil (f := ([] : Poly K)) rfl, if_neg hc]

theorem toPoly_singleton (c : K) : toPoly [c] = Polynomial.C c := by
  simp [toPoly]

theorem coefficientsGen_const (v : DV K Gam) {c : K} (hc : c ≠ 0) :
    v.coefficientsGen [c] = [[c]] := by
  have hd := v.hdeg
  obtain ⟨hqc, hrc, _, hqlen, hid⟩ := DV_quo_rem_spec v [c]
  have hq : (v.quo_rem [c]).1 = [] := by
    have hlen : (v.quo_rem [c]).1.length = 0 := by
      have he : ([c] : Poly K).length = 1 := rfl
      have hp : (DV.phi v).length = v._phi.length := rfl
      omega
    exact List.length_eq_zero.1 hlen
  have hr : (v.quo_rem [c]).2 = [c] := by
    apply toPoly_inj hrc (trim_singleton hc)
    rw [hq] at hid
    have h0 : toPoly ([] : Poly K) = 0 := rfl
    rw [h0, zero_mul, zero_add] at hid
    exact hid.symm
  rw [coefficientsGen_eq, if_neg (by simp), hq, hr]
  rfl

theorem coefficientsLin_const (v : DV K Gam) {c : K} (hc : c ≠ 0) :
    v.coefficientsLin [c] = [[c]] := by
  have hcomp : compP [c] (subP [0, 1] [coeff v.phi 0]) = [c] := by
    apply toPoly_inj (isCanon_compP _ _) (trim_singleton hc)
    rw [toPoly_compP, toPoly_singleton, Polynomial.C_comp]
  rw [DV.coefficientsLin, hcomp]
  simp [trim_singleton hc]

theorem coefficientsPure_const (v : DV K Gam) {c : K} (hc : c ≠ 0) :
    v.coefficientsPure [c] = [[c]] := by
  rw [DV.coefficientsPure]
  split
  · exact coefficientsLin_const v hc
  · exact coefficientsGen_const v hc

/-! ### Correctness of the lower-hull scan -/

section HullLemmas

variable {F : Type} [LinearOrderedField F]

theorem turns_cons3 (o a b : ℕ × F) (t : List (ℕ × F)) :
    Turns (o :: a :: b :: t) ↔ 0 < cross o a b ∧ Turns (a :: b :: t) := Iff.rfl

theorem turns_nil : Turns ([] : List (ℕ × F)) := trivial

theorem turns_single (a : ℕ × F) : Turns [a] := trivial

theorem turns_pair (a b : ℕ × F) : Turns [a, b] := trivial

theorem endTurn_cons3 (a b c : ℕ × F) (t : List (ℕ × F)) (p : ℕ × F) :
    endTurn (a :: b :: c :: t) p = endTurn (b :: c :: t) p := rfl

theorem endTurn_append_pair (a b p : ℕ × F) :
    ∀ xs : List (ℕ × F), endTurn (xs ++ [a, b]) p ↔ 0 < cross a b p := by
  intro xs
  induction xs with
  | nil => exact Iff.rfl
  | cons x ys ih =>
    cases ys with
    | nil => exact Iff.rfl
    | cons y zs =>
      cases hz : zs ++ [a, b] with
      | nil => exact absurd hz (by simp)
      | cons z ws =>
        have h1 : (x :: y :: zs) ++ [a, b] = x :: y :: z :: ws := by
          simp [hz]
        rw [h1, endTurn_cons3, ← hz]
        exact ih

theorem turns_append_one (p : ℕ × F) :
    ∀ xs : List (ℕ × F), Turns (xs ++ [p]) ↔ Turns xs ∧ endTurn xs p := by
  intro xs
  induction xs with
  | nil => exact ⟨fun _ => ⟨True.intro, True.intro⟩, fun _ => True.intro⟩
  | cons a rest ih =>
    cases rest with
    | nil =>
      constructor
      · intro _
        exact ⟨turns_single a, trivial⟩
      · intro _
        exact turns_pair a p
    | cons b t =>
      cases t with
      | nil =>
        constructor
        · intro h
          exact ⟨turns_pair a b, ((turns_cons3 a b p []).1 h).1⟩
        · intro ⟨_, hput⟩
          exact (turns_cons3 a b p []).2 ⟨hput, turns_pair b p⟩
      | cons c t2 =>
        have h1 : (a :: b :: c :: t2) ++ [p] = a :: b :: c :: (t2 ++ [p]) := rfl
        rw [h1, turns_cons3]
        have h2 : b :: c :: (t2 ++ [p]) = (b :: c :: t2) ++ [p] := rfl
        rw [h2, ih, turns_cons3, endTurn_cons3]
        tauto

theorem turns_append_left : ∀ (l1 r : List (ℕ × F)), Turns (l1 ++ r) → Turns l1 := by
  intro l1
  induction l1 with
  | nil => intro r _; trivial
  | cons a t ih =>
    intro r h
    cases t with
    | nil => trivial
    | cons b t2 =>
      cases t2 with
      | nil => trivial
      | cons c t3 =>
        have h1 : (a :: b :: c :: t3) ++ r = a :: b :: c :: (t3 ++ r) := rfl
        rw [h1, turns_cons3] at h
        refine (turns_cons3 a b c t3).2 ⟨h.1, ?_⟩
        have h2 : b :: c :: (t3 ++ r) = (b :: c :: t3) ++ r := rfl
        rw [h2] at h
        exact ih r h.2

theorem hullStep_spec (p : ℕ × F) :
    ∀ s : List (ℕ × F), ∃ t, hullStep p s = p :: t ∧ t <:+ s ∧
      (∀ b a s2, t = b :: a :: s2 → 0 < cross a b p) := by
  intro s
  induction s with
  | nil =>
    refine ⟨[], rfl, List.nil_suffix, ?_⟩
    intro b a s2 h
    simp at h
  | cons b rest ih =>
    cases rest with
    | nil =>
      refine ⟨[b], rfl, List.suffix_refl _, ?_⟩
      intro b' a' s2 h
      simp at h
    | cons a s2 =>
      by_cases hcr : cross a b p ≤ 0
      · obtain ⟨t, ht, hsuf, hturn⟩ := ih
        refine ⟨t, ?_, hsuf.trans (List.suffix_cons b _), hturn⟩
        rw [hullStep, if_pos hcr]
        exact ht
      · refine ⟨b :: a :: s2, ?_, List.suffix_refl _, ?_⟩
        · rw [hullStep, if_neg hcr]
        · intro b' a' s3 h
          simp only [List.cons.injEq] at h
          obtain ⟨hb, ha, hs⟩ := h
          rw [← hb, ← ha]
          exact lt_of_not_le hcr

theorem hullLoop_invariant (Q : ℕ × F → Prop) :
    ∀ (pts s : List (ℕ × F)),
      pts.Pairwise (fun p q => p.1 < q.1) →
      (∀ x ∈ s, ∀ p ∈ pts, x.1 < p.1) →
      List.Chain' (fun x y => y.1 < x.1) s →
      Turns s.reverse →
      (∀ x ∈ s, Q x) → (∀ p ∈ pts, Q p) →
      List.Chain' (fun x y => y.1 < x.1) (pts.foldl (fun st q => hullStep q st) s) ∧
      Turns (pts.foldl (fun st q => hullStep q st) s).reverse ∧
      (∀ x ∈ pts.foldl (fun st q => hullStep q st) s, Q x) := by
  intro pts
  induction pts with
  | nil =>
    intro s _ _ hchain hturns hQ _
    exact ⟨hchain, hturns, hQ⟩
  | cons p rest ih =>
    intro s hpw hlt hchain hturns hQs hQp
    obtain ⟨t, ht, hsuf, htn⟩ := hullStep_spec p s
    have hfold : (p :: rest).foldl (fun st q => hullStep q st) s
        = rest.foldl (fun st q => hullStep q st) (p :: t) := by
      rw [List.foldl_cons, ht]
    rw [hfold]
    have hpw' := (List.pairwise_cons.1 hpw)
    apply ih (p :: t)
    · exact hpw'.2
    · intro x hx q hq
      rcases List.mem_cons.1 hx with hx | hx
      · rw [hx]
        exact hpw'.1 q hq
      · exact hlt x (hsuf.subset hx) q (List.mem_cons_of_mem p hq)
    · cases t with
      | nil => simp
      | cons x xs =>
        refine List.chain'_cons.2 ⟨?_, hchain.suffix hsuf⟩
        exact hlt x (hsuf.subset (by simp)) p (by simp)
    · have hrev : (p :: t).reverse = t.reverse ++ [p] := by simp
      rw [hrev, turns_append_one]
      constructor
      · obtain ⟨pre, hpre⟩ := hsuf
        apply turns_append_left t.reverse pre.reverse
        have : t.reverse ++ pre.reverse = s.reverse := by
          rw [← List.reverse_append, hpre]
        rw [this]
        exact hturns
      · cases t with
        | nil => trivial
        | cons b t2 =>
          cases t2 with
          | nil => trivial
          | cons a t3 =>
            have hrev2 : (b :: a :: t3).reverse = (t3.reverse ++ [a, b] : List (ℕ × F)) := by
              simp
            rw [hrev2, endTurn_append_pair]
            exact htn b a t3 rfl
    · intro x hx
      rcases List.mem_cons.1 hx with hx | hx
      · rw [hx]
        exact hQp p (by simp)
      · exact hQs x (hsuf.subset hx)
    · intro q hq
      exact hQp q (List.mem_cons_of_mem p hq)

theorem lowerHull_spec (pts : List (ℕ × WithTop F))
    (hpw : (finitePoints pts).Pairwise (fun p q : ℕ × F => p.1 < q.1)) :
    List.Chain' (fun p q : ℕ × F => p.1 < q.1) (lowerHull pts) ∧
    Turns (lowerHull pts) ∧
    (∀ x ∈ lowerHull pts, x ∈ finitePoints pts) := by
  obtain ⟨hchain, hturns, hmem⟩ :=
    hullLoop_invariant (fun x => x ∈ finitePoints pts) (finitePoints pts) []
      hpw (by intro x hx; simp at hx) (by simp) trivial
      (by intro x hx; simp at hx) (fun p hp => hp)
  refine ⟨?_, ?_, ?_⟩
  · rw [lowerHull, List.chain'_reverse]
    exact hchain
  · rw [lowerHull]
    exact hturns
  · intro x hx
    rw [lowerHull, List.mem_reverse] at hx
    exact hmem x hx

end HullLemmas

/-! ### Remaining support lemmas -/

theorem canon_degree {f : Poly K} (hc : IsCanon f) : degree f = (f.length : ℤ) - 1 := by
  rw [degree, hc]

theorem coefficientsPure_ne_nil (v : DV K Gam) {g : Poly K} (hg : IsCanon g)
    (hne : g ≠ []) : v.coefficientsPure g ≠ [] := by
  rw [DV.coefficientsPure]
  split
  · next hdeg1 =>
    have hlin := (degree_phi_eq_one_iff v).1 hdeg1
    rw [DV.coefficientsLin]
    intro hcon
    rcases List.map_eq_nil_iff.1 hcon with hcomp
    exact compP_linSub_ne_nil v hlin (by rw [hg]; exact hne) hcomp
  · rw [coefficientsGen_eq, if_neg hne]
    simp

theorem lastMinIndex_spec (v : DV K Gam) (g : Poly K) (w : WithTop Gam)
    (hw : w ∈ v.valuations g) :
    ∃ n, v.lastMinIndex g w = some n ∧ n < (v.valuations g).length ∧
      (v.valuations g).getD n ⊤ = w ∧
      ∀ j, j < (v.valuations g).length → (v.valuations g).getD j ⊤ = w → j ≤ n := by
  set L := v.valuations g with hL
  set Filt := L.enum.filter (fun p => decide (p.2 = w)) with hFilt
  set Fl := Filt.map Prod.fst with hFl
  have hmemF : ∀ j : ℕ, j ∈ Fl ↔ (j < L.length ∧ L.getD j ⊤ = w) := by
    intro j
    constructor
    · intro hj
      rcases List.mem_map.1 hj with ⟨p, hp, hpj⟩
      have hp2 := List.mem_filter.1 hp
      have hpe : p.2 = w := of_decide_eq_true hp2.2
      have := List.mem_enum_iff_getElem?.1 hp2.1
      have hjlt : p.1 < L.length := (List.getElem?_eq_some_iff.1 this).1
      refine ⟨hpj ▸ hjlt, ?_⟩
      rw [← hpj, List.getD_eq_getElem?_getD, this, Option.getD_some, hpe]
    · intro ⟨hjlt, hjw⟩
      have hget : L[j]? = some w := by
        rw [List.getD_eq_getElem?_getD] at hjw
        rcases hq : L[j]? with _ | y
        · rw [List.getElem?_eq_none_iff] at hq
          omega
        · rw [hq] at hjw
          simp only [Option.getD_some] at hjw
          rw [hjw]
      have hpe : ((j, w) : ℕ × WithTop Gam) ∈ L.enum := List.mem_enum_iff_getElem?.2 hget
      apply List.mem_map.2
      refine ⟨(j, w), List.mem_filter.2 ⟨hpe, by simp⟩, rfl⟩
  have hFlne : Fl ≠ [] := by
    rcases (List.mem_iff_getElem?).1 hw with ⟨i, hi⟩
    have : i ∈ Fl := (hmemF i).2
      ⟨(List.getElem?_eq_some_iff.1 hi).1, by
        rw [List.getD_eq_getElem?_getD, hi, Option.getD_some]⟩
    intro hnil
    rw [hnil] at this
    simp at this
  obtain ⟨n, hn⟩ : ∃ n, Fl.getLast? = some n := by
    rcases hF : Fl.getLast? with _ | n
    · rw [List.getLast?_eq_none_iff] at hF
      exact absurd hF hFlne
    · exact ⟨n, rfl⟩
  have hpwF : Fl.Pairwise (· < ·) := by
    rw [hFl, List.pairwise_map]
    apply List.Pairwise.sublist (List.filter_sublist _)
    exact pairwise_fst_lt_enum L
  have hnF : n ∈ Fl := getLast?_mem hn
  obtain ⟨hnlt, hnw⟩ := (hmemF n).1 hnF
  refine ⟨n, ?_, hnlt, hnw, ?_⟩
  · rw [DV.lastMinIndex, ← hL, ← hFilt, ← hFl]
    exact hn
  · intro j hjlt hjw
    exact le_getLast_of_pairwise hpwF ((hmemF j).2 ⟨hjlt, hjw⟩) hn

section FinitePtLemmas

variable {F : Type} [LinearOrderedField F]

theorem toFinitePt_eq_some {p : ℕ × WithTop F} {q : ℕ × F} :
    toFinitePt p = some q ↔ p = (q.1, (q.2 : WithTop F)) := by
  rcases p with ⟨i, y⟩
  cases y with
  | top =>
    constructor
    · intro h
      simp [toFinitePt, WithTop.recTopCoe] at h
    · intro h
      simp at h
  | coe z =>
    constructor
    · intro h
      have : some (i, z) = some q := h
      have hq := Option.some.inj this
      rw [← hq]
    · intro h
      simp only [Prod.mk.injEq] at h
      have h2 : z = q.2 := by
        have := h.2
        exact WithTop.coe_inj.1 this
      show some (i, z) = some q
      rw [h.1, h2]

theorem mem_finitePoints {pts : List (ℕ × WithTop F)} {x : ℕ × F} :
    x ∈ finitePoints pts ↔ ((x.1, (x.2 : WithTop F)) : ℕ × WithTop F) ∈ pts := by
  rw [finitePoints, List.mem_filterMap]
  constructor
  · intro ⟨p, hp, hpx⟩
    rw [toFinitePt_eq_some] at hpx
    rw [← hpx]
    exact hp
  · intro h
    exact ⟨(x.1, (x.2 : WithTop F)), h, toFinitePt_eq_some.2 rfl⟩

theorem finitePoints_enum_pairwise (L : List (WithTop F)) :
    (finitePoints L.enum).Pairwise (fun p q : ℕ × F => p.1 < q.1) := by
  rw [finitePoints, List.pairwise_filterMap]
  apply List.Pairwise.imp ?_ (pairwise_fst_lt_enum L)
  intro a b hab c hc d hd
  rw [Option.mem_def, toFinitePt_eq_some] at hc hd
  rw [hc] at hab
  rw [hd] at hab
  exact hab

end FinitePtLemmas

/-! ### Internal spec of the successful effective-degree computation -/

theorem effective_degree_some (v : DV K Gam) (coerce : PElem K → Option (Poly K))
    (e : PElem K) (g : Poly K) (hcoe : coerce e = some g) :
    v.effective_degree coerce e =
      (if g = [] then Except.error PyErr.valueErrZero
      else
        match v.callVal g with
        | Except.error err => Except.error err
        | Except.ok w =>
          match v.lastMinIndex g w with
          | some n => Except.ok n
          | none => Except.error PyErr.indexErr) := by
  rw [DV.effective_degree, hcoe]

theorem effective_degree_ok (v : DV K Gam) (coerce : PElem K → Option (Poly K))
    (e : PElem K) (g : Poly K) (hcoe : coerce e = some g) (hg : IsCanon g)
    (hne : g ≠ []) (hlen : (v.valuations g).length = (v.coefficientsPure g).length) :
    ∃ n w, minList (v.valuations g) = some w ∧
      v.effective_degree coerce e = Except.ok n ∧
      n < (v.valuations g).length ∧ (v.valuations g).getD n ⊤ = w ∧
      (∀ j, j < (v.valuations g).length → (v.valuations g).getD j ⊤ = w → j ≤ n) := by
  have hvne : v.valuations g ≠ [] := by
    intro h
    rw [h] at hlen
    have h0 : (v.coefficientsPure g).length = 0 := hlen.symm
    exact coefficientsPure_ne_nil v hg hne (List.length_eq_zero.1 h0)
  obtain ⟨w, hw⟩ := minList_isSome hvne
  obtain ⟨n, hlast, hnlt, hnw, hmax⟩ := lastMinIndex_spec v g w (minList_mem hw)
  refine ⟨n, w, hw, ?_, hnlt, hnw, hmax⟩
  rw [effective_degree_some v coerce e g hcoe, if_neg hne]
  have hcall : v.callVal g = Except.ok w := by
    rw [DV.callVal, if_neg hne, hw]
  rw [hcall]
  show (match v.lastMinIndex g w with
        | some m => Except.ok m
        | none => Except.error PyErr.indexErr) = Except.ok n
  rw [hlast]

/-! ### The claims -/

/-- Claim C1 (reconstruction identity): for every polynomial `f` whose parent
is identically the valuation's domain, the sequence `(f_0, ..., f_n)` produced
by `coefficients(f)` satisfies the exact equality `f = sum_i f_i * phi^i`, in
both the linear-phi substitution path and the general iterative-division path. -/
theorem claim_C1 (v : DV K Gam) (f : Poly K) (hf : IsCanon f) :
    (∀ l, v.coefficients ⟨v.dom, f⟩ = Except.ok l → phiPowSum v.phi l = f) ∧
    phiPowSum v.phi (v.coefficientsGen f) = f ∧
    (v.phi.length = 2 → phiPowSum v.phi (v.coefficientsLin f) = f) := by
  refine ⟨?_, recon_gen_list v f hf, fun hlin => recon_lin_list v hlin f hf⟩
  intro l hl
  have hok : v.coefficients ⟨v.dom, f⟩ = Except.ok (v.coefficientsPure f) := by
    rw [DV.coefficients, if_pos rfl]
  rw [hok] at hl
  rw [← Except.ok.inj hl]
  exact recon_pure_list v f hf

/-- Claim C2 (degree bound): every polynomial yielded by `coefficients(f)` has
degree strictly less than `deg(phi)`, on the dispatched path and on both
individual paths. -/
theorem claim_C2 (v : DV K Gam) (f : Poly K) :
    (∀ l, v.coefficients ⟨v.dom, f⟩ = Except.ok l → ∀ c ∈ l, degree c < degree v.phi) ∧
    (∀ c ∈ v.coefficientsGen f, degree c < degree v.phi) ∧
    (∀ c ∈ v.coefficientsLin f, degree c < degree v.phi) := by
  have hphic : IsCanon v.phi := v.hcanon
  have hd : 2 ≤ v.phi.length := v.hdeg
  have hgen : ∀ c ∈ v.coefficientsGen f, degree c < degree v.phi := by
    intro c hc
    obtain ⟨hcc, hclen⟩ := (coefficientsGen_bounded_spec v f.length f (Nat.le_refl _)).2.1 c hc
    rw [canon_degree hcc, canon_degree hphic]
    omega
  have hlin : ∀ c ∈ v.coefficientsLin f, degree c < degree v.phi := by
    intro c hc
    obtain ⟨hcc, hclen⟩ := coefficientsLin_entries v f c hc
    rw [canon_degree hcc, canon_degree hphic]
    omega
  refine ⟨?_, hgen, hlin⟩
  intro l hl c hc
  have hok : v.coefficients ⟨v.dom, f⟩ = Except.ok (v.coefficientsPure f) := by
    rw [DV.coefficients, if_pos rfl]
  rw [hok] at hl
  rw [← Except.ok.inj hl] at hc
  rw [DV.coefficientsPure] at hc
  split at hc
  · exact hlin c hc
  · exact hgen c hc

/-- Claim C3 (evaluation consistency): calling the valuation on the zero
polynomial with parent identically the domain returns the value group's
infinity element, and on any non-zero `f` in the domain it returns the
minimum of the term-valuation sequence `valuations(f)`. -/
theorem claim_C3 (v : DV K Gam) (f : Poly K) (hne : f ≠ [])
    (hval : v.valuations f ≠ []) :
    v.call ⟨v.dom, []⟩ = Except.ok ⊤ ∧
    ∃ w, minList (v.valuations f) = some w ∧ v.call ⟨v.dom, f⟩ = Except.ok w ∧
      w ∈ v.valuations f ∧ ∀ y ∈ v.valuations f, w ≤ y := by
  constructor
  · rw [DV.call, if_pos rfl, DV.callVal, if_pos rfl]
  · obtain ⟨w, hw⟩ := minList_isSome hval
    refine ⟨w, hw, ?_, minList_mem hw, minList_le hw⟩
    rw [DV.call, if_pos rfl, DV.callVal, if_neg hne, hw]

/-- Claim C4 (effective-degree contract with tie-break): `effective_degree`
fails with a value error exactly when its (coerced) argument is zero; on a
non-zero argument satisfying the evaluator contract it returns the largest
index whose term valuation equals the overall valuation; and on a non-zero
base-ring constant it returns 0. -/
theorem claim_C4 (v : DV K Gam) (coerce : PElem K → Option (Poly K)) :
    (∀ e, coerce e = some [] →
      v.effective_degree coerce e = Except.error PyErr.valueErrZero) ∧
    (∀ e g, coerce e = some g → IsCanon g → g ≠ [] →
      (v.valuations g).length = (v.coefficientsPure g).length →
      ∃ n w, minList (v.valuations g) = some w ∧
        v.effective_degree coerce e = Except.ok n ∧
        n < (v.valuations g).length ∧ (v.valuations g).getD n ⊤ = w ∧
        (∀ j, j < (v.valuations g).length → (v.valuations g).getD j ⊤ = w → j ≤ n)) ∧
    (∀ (e : PElem K) (c : K), coerce e = some [c] → c ≠ 0 →
      (v.valuations [c]).length = (v.coefficientsPure [c]).length →
      v.effective_degree coerce e = Except.ok 0) := by
  refine ⟨?_, ?_, ?_⟩
  · intro e hcoe
    rw [effective_degree_some v coerce e [] hcoe, if_pos rfl]
  · intro e g hcoe hg hne hlen
    exact effective_degree_ok v coerce e g hcoe hg hne hlen
  · intro e c hcoe hc hlen
    obtain ⟨n, w, _, hok, hnlt, _, _⟩ :=
      effective_degree_ok v coerce e [c] hcoe (trim_singleton hc) (by simp) hlen
    have h1 : (v.coefficientsPure [c]).length = 1 := by
      rw [coefficientsPure_const v hc]
      rfl
    have hn0 : n = 0 := by omega
    rw [← hn0]
    exact hok

/-- Claim C5 (termination and the zero case): the general-case expansion loop
reaches the zero polynomial within `f.length` division steps (any fuel of at
least `f.length` computes the same finite sequence), the sequence is no longer
than `f.length`, and for `f = 0` the loop body never runs and the expansion is
the empty sequence. -/
theorem claim_C5 (v : DV K Gam) (f : Poly K) :
    v.coefficientsGen ([] : Poly K) = [] ∧
    (∀ fuel, f.length ≤ fuel → v.coefficientsGenAux fuel f = v.coefficientsGen f) ∧
    (v.coefficientsGen f).length ≤ f.length :=
  ⟨rfl, fun fuel h => coefficientsGenAux_of_le v fuel f h,
    (coefficientsGen_bounded_spec v f.length f (Nat.le_refl _)).2.2.1⟩

/-- Claim C6 (linear/general path equivalence): when `deg(phi) = 1`,
`coefficients(f)` is computed by the substitution path, and for every `f` in
the domain the substitution-based expansion coincides with the expansion the
general iterative-division algorithm produces, both satisfying the
reconstruction property identically. -/
theorem claim_C6 (v : DV K Gam) (hlin : degree v.phi = 1) (f : Poly K)
    (hf : IsCanon f) :
    v.coefficientsLin f = v.coefficientsGen f ∧
    v.coefficientsPure f = v.coefficientsLin f ∧
    phiPowSum v.phi (v.coefficientsLin f) = f ∧
    phiPowSum v.phi (v.coefficientsGen f) = f := by
  have h2 := (degree_phi_eq_one_iff v).1 hlin
  refine ⟨lin_eq_gen v h2 f hf, ?_, recon_lin_list v h2 f hf, recon_gen_list v f hf⟩
  rw [DV.coefficientsPure, if_pos hlin]

/-- Claim C7 (construction contract): the constructor fails with a domain-kind
type error when the domain is not a polynomial ring, an unsupported-arity
error when the ring has several generators, a type error when `phi` cannot be
coerced, and a value error when the coerced `phi` is constant or not monic; on
success the validated `phi` is returned, stored, and exposed by the accessor
`phi()`. -/
theorem claim_C7 (isPolyRing : Bool) (ngens : ℕ) (coercedPhi : Option (Poly K)) :
    (isPolyRing = false →
      initDV isPolyRing ngens coercedPhi = Except.error PyErr.typeErrDomainKind) ∧
    (isPolyRing = true → ngens ≠ 1 →
      initDV isPolyRing ngens coercedPhi = Except.error PyErr.notImplArity) ∧
    (isPolyRing = true → ngens = 1 → coercedPhi = none →
      initDV isPolyRing ngens coercedPhi = Except.error PyErr.typeErrCoerce) ∧
    (∀ phi : Poly K, isPolyRing = true → ngens = 1 → coercedPhi = some phi →
      (degree phi ≤ 0 ∨ (trim phi).getLastD 0 ≠ 1) →
      initDV isPolyRing ngens coercedPhi = Except.error PyErr.valueErrPhi) ∧
    (∀ phi : Poly K, isPolyRing = true → ngens = 1 → coercedPhi = some phi →
      0 < degree phi → (trim phi).getLastD 0 = 1 →
      initDV isPolyRing ngens coercedPhi = Except.ok phi) ∧
    (∀ (dom : ℕ) (phi : Poly K) (h1 : trim phi = phi) (h2 : phi.getLastD 0 = 1)
        (h3 : 2 ≤ phi.length) (vals : Poly K → List (WithTop Gam)),
      (mkDV dom phi h1 h2 h3 vals).phi = phi) := by
  refine ⟨?_, ?_, ?_, ?_, ?_, ?_⟩
  · intro h
    subst h
    rw [initDV.eq_def, if_pos (by simp)]
  · intro h hn
    subst h
    rw [initDV.eq_def, if_neg (by simp), if_pos hn]
  · intro h hn hc
    subst h hn hc
    rw [initDV, if_neg (by simp), if_neg (by simp)]
  · intro phi h hn hc hbad
    subst h hn hc
    rw [initDV, if_neg (by simp), if_neg (by simp)]
    rw [if_pos]
    rcases hbad with hb | hb
    · exact Or.inl hb
    · exact Or.inr hb
  · intro phi h hn hc hdeg hmon
    subst h hn hc
    rw [initDV, if_neg (by simp), if_neg (by simp)]
    rw [if_neg]
    push_neg
    exact ⟨by omega, hmon⟩
  · intro dom phi h1 h2 h3 vals
    rfl

/-- Claim C8 (domain-identity check): `coefficients(f)`, the valuation call,
and `newton_polygon(f)` each fail with a value error whenever `f`'s parent is
not identically the valuation's domain — even when `f` is coercible into it —
and return only the error, never a result, in that case. -/
theorem claim_C8 {F : Type} [LinearOrderedField F] (v : DV K F) (f : PElem K)
    (hpar : f.parent ≠ v.dom) (coerce : PElem K → Option (Poly K)) (g : Poly K)
    (hcoercible : coerce f = some g) :
    v.coefficients f = Except.error PyErr.valueErrNotInDomain ∧
    v.call f = Except.error PyErr.valueErrNotInDomain ∧
    v.newton_polygon f = Except.error PyErr.valueErrNotInDomain := by
  refine ⟨?_, ?_, ?_⟩
  · rw [DV.coefficients, if_neg hpar]
  · rw [DV.call, if_neg hpar]
  · rw [DV.newton_polygon, if_neg hpar]

/-- Claim C9 (Newton polygon): for every `f` with parent identically the
domain (the zero polynomial allowed), `newton_polygon(f)` is the lower convex
hull of the finite points of `(i, valuations(f)[i])` — its vertices lie among
those points, have strictly increasing indices and make strictly convex turns,
and infinite values never appear in the hull; for `f = 0` the polygon is
empty. -/
theorem claim_C9 {F : Type} [LinearOrderedField F] (v : DV K F) (f : PElem K)
    (hpar : f.parent = v.dom) :
    v.newton_polygon f = Except.ok (lowerHull ((v.valuations f.poly).enum)) ∧
    (∀ x ∈ lowerHull ((v.valuations f.poly).enum),
      ((x.1, (x.2 : WithTop F)) : ℕ × WithTop F) ∈ (v.valuations f.poly).enum) ∧
    List.Chain' (fun p q : ℕ × F => p.1 < q.1)
      (lowerHull ((v.valuations f.poly).enum)) ∧
    Turns (lowerHull ((v.valuations f.poly).enum)) ∧
    (v.valuations [] = [] → v.newton_polygon ⟨v.dom, []⟩ = Except.ok []) := by
  obtain ⟨hch, htn, hsub⟩ := lowerHull_spec (v.valuations f.poly).enum
    (finitePoints_enum_pairwise _)
  refine ⟨?_, ?_, hch, htn, ?_⟩
  · rw [DV.newton_polygon, if_pos hpar]
  · intro x hx
    exact mem_finitePoints.1 (hsub x hx)
  · intro hv0
    rw [DV.newton_polygon, if_pos rfl]
    show Except.ok (lowerHull ((v.valuations ([] : Poly K)).enum)) = Except.ok []
    rw [hv0]
    rfl

/-- Claim C10 (implicit interface asymmetry): `effective_degree` coerces its
argument into the domain instead of performing the parent-identity check used
by `coefficients`, the valuation call, and `newton_polygon`; for every element
coercible into the domain it never raises the domain-mismatch value error (nor
the coercion type error) that those operations raise for
coercible-but-not-identical inputs. -/
theorem claim_C10 {F : Type} [LinearOrderedField F] (v : DV K F)
    (coerce : PElem K → Option (Poly K)) (f : PElem K) :
    v.effective_degree coerce f ≠ Except.error PyErr.valueErrNotInDomain ∧
    (∀ g, coerce f = some g →
      v.effective_degree coerce f ≠ Except.error PyErr.typeErrCoerce) ∧
    (f.parent ≠ v.dom →
      v.coefficients f = Except.error PyErr.valueErrNotInDomain ∧
      v.call f = Except.error PyErr.valueErrNotInDomain ∧
      v.newton_polygon f = Except.error PyErr.valueErrNotInDomain) := by
  have hcases : ∀ g : Poly K, coerce f = some g →
      v.effective_degree coerce f ≠ Except.error PyErr.valueErrNotInDomain ∧
      v.effective_degree coerce f ≠ Except.error PyErr.typeErrCoerce := by
    intro g hg
    rw [effective_degree_some v coerce f g hg]
    by_cases hz : g = []
    · rw [if_pos hz]
      exact ⟨(fun h => nomatch h), (fun h => nomatch h)⟩
    · rw [if_neg hz]
      rcases hcall : v.callVal g with err | w
      · have herr : err = PyErr.valueErrEmptyMin := by
          rw [DV.callVal, if_neg hz] at hcall
          rcases hmin : minList (v.valuations g) with _ | w2
          · rw [hmin] at hcall
            exact (Except.error.inj hcall).symm
          · rw [hmin] at hcall
            cases hcall
        subst herr
        exact ⟨(fun h => nomatch h), (fun h => nomatch h)⟩
      · show (match v.lastMinIndex g w with
              | some m => Except.ok m
              | none => Except.error PyErr.indexErr) ≠ Except.error PyErr.valueErrNotInDomain ∧
            (match v.lastMinIndex g w with
              | some m => Except.ok m
              | none => Except.error PyErr.indexErr) ≠ Except.error PyErr.typeErrCoerce
        rcases hli : v.lastMinIndex g w with _ | n
        · exact ⟨(fun h => nomatch h), (fun h => nomatch h)⟩
        · exact ⟨(fun h => nomatch h), (fun h => nomatch h)⟩
  constructor
  · rcases hg : coerce f with _ | g
    · rw [DV.effective_degree, hg]
      intro h
      cases h
    · exact (hcases g hg).1
  constructor
  · intro g hg
    exact (hcases g hg).2
  · intro hpar
    refine ⟨?_, ?_, ?_⟩
    · rw [DV.coefficients, if_neg hpar]
    · rw [DV.call, if_neg hpar]
    · rw [DV.newton_polygon, if_neg hpar]

/-! ### Concrete witnesses -/

/-- Witness for C1: both expansion paths reconstruct `x^2 + 2x + 3` over `ℤ`. -/
theorem claim_C1_witness :
    IsCanon ([3, 2, 1] : Poly ℤ) ∧
    phiPowSum vGen.phi (vGen.coefficientsGen [3, 2, 1]) = [3, 2, 1] ∧
    phiPowSum vLin.phi (vLin.coefficientsLin [3, 2, 1]) = [3, 2, 1] :=
  ⟨by decide, (claim_C1 vGen [3, 2, 1] (by decide)).2.1,
    (claim_C1 vLin [3, 2, 1] (by decide)).2.2 (by decide)⟩

/-- Witness for C2: the two entries of the expansion of `x^2 + 2x + 3` in base
`x^2 + x + 1` have degree below 2. -/
theorem claim_C2_witness :
    degree ([2, 1] : Poly ℤ) < degree vGen.phi ∧
    degree ([1] : Poly ℤ) < degree vGen.phi :=
  ⟨(claim_C2 vGen [3, 2, 1]).2.1 [2, 1] (by decide),
    (claim_C2 vGen [3, 2, 1]).2.1 [1] (by decide)⟩

/-- Witness for C3 at `x^2 + 2x + 3` over `ℤ` with `phi = x^2 + x + 1`. -/
theorem claim_C3_witness :
    (([3, 2, 1] : Poly ℤ) ≠ []) ∧ (vGen.valuations [3, 2, 1] ≠ []) ∧
    (vGen.call ⟨vGen.dom, []⟩ = Except.ok ⊤ ∧
      ∃ w, minList (vGen.valuations [3, 2, 1]) = some w ∧
        vGen.call ⟨vGen.dom, [3, 2, 1]⟩ = Except.ok w ∧
        w ∈ vGen.valuations [3, 2, 1] ∧ ∀ y ∈ vGen.valuations [3, 2, 1], w ≤ y) :=
  ⟨by decide, by decide, claim_C3 vGen [3, 2, 1] (by decide) (by decide)⟩

/-- Witness for C4: the zero polynomial is rejected with the value error, and
a non-zero constant has effective degree 0. -/
theorem claim_C4_witness :
    vLin.effective_degree (fun e => some e.poly) ⟨0, ([] : Poly ℤ)⟩
        = Except.error PyErr.valueErrZero ∧
    vLin.effective_degree (fun e => some e.poly) ⟨0, ([5] : Poly ℤ)⟩ = Except.ok 0 :=
  ⟨(claim_C4 vLin (fun e => some e.poly)).1 ⟨0, []⟩ rfl,
    (claim_C4 vLin (fun e => some e.poly)).2.2 ⟨0, [5]⟩ 5 rfl (by decide) (by decide)⟩

/-- Witness for C5 at `x^2 + 2x + 3` with `phi = x^2 + x + 1`. -/
theorem claim_C5_witness :
    vGen.coefficientsGenAux 7 [3, 2, 1] = vGen.coefficientsGen [3, 2, 1] ∧
    (vGen.coefficientsGen [3, 2, 1]).length ≤ ([3, 2, 1] : Poly ℤ).length ∧
    vGen.coefficientsGen ([] : Poly ℤ) = [] :=
  ⟨(claim_C5 vGen [3, 2, 1]).2.1 7 (by decide), (claim_C5 vGen [3, 2, 1]).2.2,
    (claim_C5 vGen [3, 2, 1]).1⟩

/-- Witness for C6: with `phi = x`, the substitution path and the iterative
path agree on `x^2 + 2x + 3`. -/
theorem claim_C6_witness :
    degree vLin.phi = 1 ∧ IsCanon ([3, 2, 1] : Poly ℤ) ∧
    vLin.coefficientsLin [3, 2, 1] = vLin.coefficientsGen [3, 2, 1] ∧
    phiPowSum vLin.phi (vLin.coefficientsGen [3, 2, 1]) = [3, 2, 1] :=
  ⟨by decide, by decide, (claim_C6 vLin (by decide) [3, 2, 1] (by decide)).1,
    (claim_C6 vLin (by decide) [3, 2, 1] (by decide)).2.2.2⟩

/-- Witness for C7: a monic non-constant key is accepted and stored, a
non-polynomial-ring domain and a constant key are rejected. -/
theorem claim_C7_witness :
    initDV true 1 (some ([1, 1, 1] : Poly ℤ)) = Except.ok [1, 1, 1] ∧
    initDV false 1 (some ([1, 1, 1] : Poly ℤ)) = Except.error PyErr.typeErrDomainKind ∧
    initDV true 1 (some ([5] : Poly ℤ)) = Except.error PyErr.valueErrPhi ∧
    (mkDV 0 ([1, 1, 1] : Poly ℤ) (by decide) (by decide) (by decide)
      (fun _ => ([] : List (WithTop ℚ)))).phi = [1, 1, 1] :=
  ⟨(@claim_C7 ℤ _ _ ℚ _ true 1 (some [1, 1, 1])).2.2.2.2.1 [1, 1, 1] rfl rfl rfl
      (by decide) (by decide),
    (@claim_C7 ℤ _ _ ℚ _ false 1 (some [1, 1, 1])).1 rfl,
    (@claim_C7 ℤ _ _ ℚ _ true 1 (some [5])).2.2.2.1 [5] rfl rfl rfl (by decide),
    (claim_C7 true 1 (some [1, 1, 1])).2.2.2.2.2 0 [1, 1, 1] (by decide) (by decide)
      (by decide) (fun _ => [])⟩

/-- Witness for C8: a coercible element whose parent is not the domain is
rejected by all three identity-checked operations. -/
theorem claim_C8_witness :
    vGen.coefficients ⟨1, [3, 2, 1]⟩ = Except.error PyErr.valueErrNotInDomain ∧
    vGen.call ⟨1, [3, 2, 1]⟩ = Except.error PyErr.valueErrNotInDomain ∧
    vGen.newton_polygon ⟨1, [3, 2, 1]⟩ = Except.error PyErr.valueErrNotInDomain :=
  claim_C8 vGen ⟨1, [3, 2, 1]⟩ (by decide) (fun e => some e.poly) [3, 2, 1] rfl

/-- Witness for C9 at `x^2 + 2x + 3` with `phi = x^2 + x + 1`, and the empty
polygon of the zero polynomial. -/
theorem claim_C9_witness :
    vGen.newton_polygon ⟨0, [3, 2, 1]⟩
        = Except.ok (lowerHull ((vGen.valuations [3, 2, 1]).enum)) ∧
    Turns (lowerHull ((vGen.valuations [3, 2, 1]).enum)) ∧
    vGen.newton_polygon ⟨vGen.dom, []⟩ = Except.ok [] :=
  ⟨(claim_C9 vGen ⟨0, [3, 2, 1]⟩ rfl).1,
    (claim_C9 vGen ⟨0, [3, 2, 1]⟩ rfl).2.2.2.1,
    (claim_C9 vGen ⟨0, [3, 2, 1]⟩ rfl).2.2.2.2 (by decide)⟩

/-- Witness for C10: `effective_degree` accepts a coercible element whose
parent differs from the domain, while `coefficients` rejects it. -/
theorem claim_C10_witness :
    vGen.effective_degree (fun e => some e.poly) ⟨1, [3, 2, 1]⟩
        ≠ Except.error PyErr.valueErrNotInDomain ∧
    vGen.coefficients ⟨1, [3, 2, 1]⟩ = Except.error PyErr.valueErrNotInDomain :=
  ⟨(claim_C10 vGen (fun e => some e.poly) ⟨1, [3, 2, 1]⟩).1,
    ((claim_C10 vGen (fun e => some e.poly) ⟨1, [3, 2, 1]⟩).2.2 (by decide)).1⟩

end DevVal
